import Mathlib

/-!
Verification of the generic graph-search engine of `homeworks/hw0/search.py`:
depth-first, breadth-first, uniform-cost and A* search over an abstract
search problem.  The search loops are embedded shallowly with an explicit
fuel argument (`none` means the fuel ran out, `some r` is the value the
Python function returns).  Step costs, accumulated costs and heuristic
values are `Nat`, matching the spec's restriction to non-negative numeric
costs.  The frontier containers (`util.Stack`, `util.Queue`,
`util.PriorityQueue`) and the problem-defined `getCostOfActions` are not
part of the source tree and are modelled from the spec.
-/

set_option linter.unusedSectionVars false
set_option linter.unusedVariables false

namespace SearchSpec

/-- The abstract search problem interface of `search.py` (`SearchProblem`):
a start state, a Boolean goal test, and a successor generator returning
triples (successor, action, stepCost). -/
structure SearchProblem (S A : Type) where
  getStartState : S
  isGoalState : S → Bool
  getSuccessors : S → List (S × A × Nat)

/-- A frontier entry of the cost-aware searches: the Python tuple
(state, path, accumulated cost). -/
structure Entry (S A : Type) where
  state : S
  path : List A
  cost : Nat
  deriving DecidableEq

/-- Modelled from the spec: `util.PriorityQueue` removal (min-first, ties
broken by insertion order).  The queue is a list of (item, priority) pairs
in insertion order; `popMin` removes and returns the earliest-inserted pair
of minimal priority. -/
def popMin {α : Type} : List (α × Nat) → Option ((α × Nat) × List (α × Nat))
  | [] => none
  | e :: rest =>
    match popMin rest with
    | none => some (e, [])
    | some (m, rest') => if e.2 ≤ m.2 then some (e, rest) else some (m, e :: rest')

/-- Lookup in the best-cost map (Python dict membership / subscript):
first matching key. -/
def lookupV {S : Type} [DecidableEq S] : List (S × Nat) → S → Option Nat
  | [], _ => none
  | (t, m) :: rest, s => if s = t then some m else lookupV rest s

/-- Update of the best-cost map (Python `visited[state] = cost`): replace
the value at the first matching key, or append a new binding. -/
def updateV {S : Type} [DecidableEq S] : List (S × Nat) → S → Nat → List (S × Nat)
  | [], s, c => [(s, c)]
  | (t, m) :: rest, s, c => if s = t then (s, c) :: rest else (t, m) :: updateV rest s c

/-- The skip / push condition of the cost-aware searches, literally
`state not in visited or cost < visited[state]`. -/
def improves {S : Type} [DecidableEq S] (visited : List (S × Nat)) (s : S) (c : Nat) : Bool :=
  match lookupV visited s with
  | none => true
  | some m => decide (c < m)

variable {S A : Type} [DecidableEq S] [DecidableEq A]

/-- Depth-first search loop (`depthFirstSearch` in `search.py`): the
frontier is a LIFO stack of (state, path) pairs, head = top; successors
are pushed in order, so the list of pushed entries is reversed onto the
stack. -/
def dfsAux (p : SearchProblem S A) : Nat → List (S × List A) → List S → Option (List A)
  | 0, _, _ => none
  | _ + 1, [], _ => some []
  | fuel + 1, (s, path) :: rest, visited =>
    if p.isGoalState s then some path
    else if s ∈ visited then dfsAux p fuel rest visited
    else
      dfsAux p fuel
        (((p.getSuccessors s).map (fun x => (x.1, path ++ [x.2.1]))).reverse ++ rest)
        (s :: visited)

/-- `depthFirstSearch(problem)`. -/
def depthFirstSearch (p : SearchProblem S A) (fuel : Nat) : Option (List A) :=
  dfsAux p fuel [(p.getStartState, [])] []

/-- Breadth-first search loop (`breadthFirstSearch` in `search.py`): the
frontier is a FIFO queue of (state, path) pairs, head = front; successors
are appended at the back in order. -/
def bfsAux (p : SearchProblem S A) : Nat → List (S × List A) → List S → Option (List A)
  | 0, _, _ => none
  | _ + 1, [], _ => some []
  | fuel + 1, (s, path) :: rest, visited =>
    if p.isGoalState s then some path
    else if s ∈ visited then bfsAux p fuel rest visited
    else
      bfsAux p fuel
        (rest ++ (p.getSuccessors s).map (fun x => (x.1, path ++ [x.2.1])))
        (s :: visited)

/-- `breadthFirstSearch(problem)`. -/
def breadthFirstSearch (p : SearchProblem S A) (fuel : Nat) : Option (List A) :=
  bfsAux p fuel [(p.getStartState, [])] []

/-- The frontier entries pushed by one expansion step of
`uniformCostSearch`: for each successor triple (t, a, w) with
`newCost = g + w`, the entry ((t, path + [a], newCost), newCost) is pushed
provided `t not in visited or newCost < visited[t]` (where `visited`
already holds the update for the expanded state). -/
def ucsExpandEntries (p : SearchProblem S A) (visited : List (S × Nat)) (s : S)
    (path : List A) (g : Nat) : List (Entry S A × Nat) :=
  ((p.getSuccessors s).filter (fun x => improves visited x.1 (g + x.2.2))).map
    (fun x => (Entry.mk x.1 (path ++ [x.2.1]) (g + x.2.2), g + x.2.2))

/-- Uniform-cost search loop (`uniformCostSearch` in `search.py`): the
frontier is the stable min-first priority queue, priority = accumulated
cost; the best-cost map is consulted with the same
`not in visited or cost < visited[...]` condition both at pop time and
before each push. -/
def ucsAux (p : SearchProblem S A) : Nat → List (Entry S A × Nat) → List (S × Nat) →
    Option (List A)
  | 0, _, _ => none
  | fuel + 1, frontier, visited =>
    match popMin frontier with
    | none => some []
    | some (e, rest) =>
      if p.isGoalState e.1.state then some e.1.path
      else if improves visited e.1.state e.1.cost then
        ucsAux p fuel
          (rest ++ ucsExpandEntries p (updateV visited e.1.state e.1.cost)
            e.1.state e.1.path e.1.cost)
          (updateV visited e.1.state e.1.cost)
      else ucsAux p fuel rest visited

/-- `uniformCostSearch(problem)`. -/
def uniformCostSearch (p : SearchProblem S A) (fuel : Nat) : Option (List A) :=
  ucsAux p fuel [(Entry.mk p.getStartState [] 0, 0)] []

/-- `nullHeuristic(state, problem)`: the trivial zero heuristic. -/
def nullHeuristic (_ : S) (_ : SearchProblem S A) : Nat := 0

/-- The frontier entries pushed by one expansion step of `aStarSearch`:
as for uniform-cost search, but the priority of a pushed entry is
`newCost + heuristic(nextState, problem)`. -/
def aStarExpandEntries (p : SearchProblem S A) (h : S → SearchProblem S A → Nat)
    (visited : List (S × Nat)) (s : S) (path : List A) (g : Nat) :
    List (Entry S A × Nat) :=
  ((p.getSuccessors s).filter (fun x => improves visited x.1 (g + x.2.2))).map
    (fun x => (Entry.mk x.1 (path ++ [x.2.1]) (g + x.2.2), g + x.2.2 + h x.1 p))

/-- A* search loop (`aStarSearch` in `search.py`): identical to the
uniform-cost loop except that pushed priorities add the heuristic value of
the pushed state. -/
def aStarAux (p : SearchProblem S A) (h : S → SearchProblem S A → Nat) :
    Nat → List (Entry S A × Nat) → List (S × Nat) → Option (List A)
  | 0, _, _ => none
  | fuel + 1, frontier, visited =>
    match popMin frontier with
    | none => some []
    | some (e, rest) =>
      if p.isGoalState e.1.state then some e.1.path
      else if improves visited e.1.state e.1.cost then
        aStarAux p h fuel
          (rest ++ aStarExpandEntries p h (updateV visited e.1.state e.1.cost)
            e.1.state e.1.path e.1.cost)
          (updateV visited e.1.state e.1.cost)
      else aStarAux p h fuel rest visited

/-- `aStarSearch(problem, heuristic)`: the initial entry carries priority
`0 + heuristic(startState, problem)`. -/
def aStarSearch (p : SearchProblem S A) (h : S → SearchProblem S A → Nat)
    (fuel : Nat) : Option (List A) :=
  aStarAux p h fuel [(Entry.mk p.getStartState [] 0, 0 + h p.getStartState p)] []

/-- `CostPath p s acts v c` holds when replaying the action list `acts`
from state `s` through `getSuccessors`, following at each step a successor
triple carrying the action, ends at state `v` with total step cost `c`. -/
inductive CostPath (p : SearchProblem S A) : S → List A → S → Nat → Prop
  | nil (s : S) : CostPath p s [] s 0
  | cons {s t v : S} {a : A} {w c : Nat} {acts : List A} :
      (t, a, w) ∈ p.getSuccessors s → CostPath p t acts v c →
      CostPath p s (a :: acts) v (w + c)

/-- A state is reachable when some action sequence leads to it from the
start state. -/
def Reaches (p : SearchProblem S A) (v : S) : Prop :=
  ∃ acts c, CostPath p p.getStartState acts v c

/-- Modelled from the spec: the problem-defined `getCostOfActions` replay
of a legal action sequence; from each state the (first) successor triple
carrying the next action is followed and its step cost accumulated.
Returns the final state and total cost, or `none` on an illegal move. -/
def replay (p : SearchProblem S A) : S → List A → Option (S × Nat)
  | s, [] => some (s, 0)
  | s, a :: rest =>
    match (p.getSuccessors s).find? (fun x => x.2.1 == a) with
    | none => none
    | some x =>
      match replay p x.1 rest with
      | none => none
      | some (v, c) => some (v, x.2.2 + c)

/-- Modelled from the spec: `getCostOfActions(actions)` — the total cost
of an action sequence composed of legal moves, replayed from the start
state. -/
def getCostOfActions (p : SearchProblem S A) (actions : List A) : Option Nat :=
  (replay p p.getStartState actions).map Prod.snd

/-- A well-behaved (deterministic) problem source: the successor triples
of a state carry pairwise distinct meanings per action — two triples with
the same action agree on target state and step cost. -/
def Deterministic (p : SearchProblem S A) : Prop :=
  ∀ s t a w t' w', (t, a, w) ∈ p.getSuccessors s → (t', a, w') ∈ p.getSuccessors s →
    t = t' ∧ w = w'

/-- An admissible heuristic: never overestimates the cost of any action
sequence from a state to a goal state. -/
def Admissible (p : SearchProblem S A) (h : S → SearchProblem S A → Nat) : Prop :=
  ∀ s acts v c, CostPath p s acts v c → p.isGoalState v = true → h s p ≤ c

/-- A consistent heuristic: along every successor edge,
`heuristic(state) ≤ stepCost + heuristic(successor)`. -/
def Consistent (p : SearchProblem S A) (h : S → SearchProblem S A → Nat) : Prop :=
  ∀ s x, x ∈ p.getSuccessors s → h s p ≤ x.2.2 + h x.1 p

/-- `c` is the minimum cost of any action sequence from the start state to
a goal state. -/
def IsMinGoalCost (p : SearchProblem S A) (c : Nat) : Prop :=
  (∃ acts v, CostPath p p.getStartState acts v c ∧ p.isGoalState v = true) ∧
    (∀ acts v c', CostPath p p.getStartState acts v c' → p.isGoalState v = true → c ≤ c')

/-- Total of the values recorded in the best-cost map (used as a
termination measure). -/
def sumV (v : List (S × Nat)) : Nat := (v.map Prod.snd).sum

/-! ### Loop invariants of the cost-aware searches

All invariants are stated for `aStarAux` with an arbitrary heuristic; the
uniform-cost results follow through `aStarAux_null`. -/
/-- A frontier entry is good when its path really leads from the start
state to its state with its accumulated cost, and its stored priority is
accumulated cost plus heuristic. -/
def goodEntry (p : SearchProblem S A) (h : S → SearchProblem S A → Nat)
    (e : Entry S A × Nat) : Prop :=
  CostPath p p.getStartState e.1.path e.1.state e.1.cost ∧ e.2 = e.1.cost + h e.1.state p

/-- Every state recorded in the best-cost map was reached at the recorded
cost and failed the goal test. -/
def goodVis (p : SearchProblem S A) (vis : List (S × Nat)) : Prop :=
  ∀ s c, lookupV vis s = some c →
    (∃ acts, CostPath p p.getStartState acts s c) ∧ p.isGoalState s = false

/-- Edge relaxation: every successor edge of a state recorded in the
best-cost map has been relaxed — the successor is itself recorded at no
worse a cost, or the frontier still holds an entry for it at no worse a
cost. -/
def relaxed (p : SearchProblem S A) (fr : List (Entry S A × Nat))
    (vis : List (S × Nat)) : Prop :=
  ∀ s c, lookupV vis s = some c → ∀ x ∈ p.getSuccessors s,
    (∃ c', lookupV vis x.1 = some c' ∧ c' ≤ c + x.2.2) ∨
      (∃ e ∈ fr, (e : Entry S A × Nat).1.state = x.1 ∧ e.1.cost ≤ c + x.2.2)

/-- The start state is settled at cost 0, or the frontier still holds a
cost-0 entry for it. -/
def anchored (p : SearchProblem S A) (fr : List (Entry S A × Nat))
    (vis : List (S × Nat)) : Prop :=
  lookupV vis p.getStartState = some 0 ∨
    ∃ e ∈ fr, (e : Entry S A × Nat).1.state = p.getStartState ∧ e.1.cost = 0

/-- The full loop invariant of the cost-aware searches. -/
def AstarInv (p : SearchProblem S A) (h : S → SearchProblem S A → Nat)
    (fr : List (Entry S A × Nat)) (vis : List (S × Nat)) : Prop :=
  (∀ e ∈ fr, goodEntry p h e) ∧ goodVis p vis ∧ relaxed p fr vis ∧ anchored p fr vis

/-- A small self-contained Boolean counter over lists. -/
def countB {α : Type} (P : α → Bool) : List α → Nat
  | [] => 0
  | a :: t => (if P a then 1 else 0) + countB P t

/-- Number of (distinct) states of `L` not yet in the uninformed visited
set. -/
def unvisS (L : List S) (vis : List S) : Nat :=
  countB (fun s => decide (s ∉ vis)) L.dedup

/-- Number of (distinct) states of `L` not yet recorded in the best-cost
map. -/
def unvisK (L : List S) (vis : List (S × Nat)) : Nat :=
  countB (fun s => decide (lookupV vis s = none)) L.dedup

/-- The loop invariant of the uninformed searches: frontier paths are
valid, visited states failed the goal test, successor edges of visited
states point back into the visited set or into the frontier, and the start
state is covered. -/
def DfsInv (p : SearchProblem S A) (fr : List (S × List A)) (vis : List S) : Prop :=
  (∀ e ∈ fr, ∃ c, CostPath p p.getStartState (e : S × List A).2 e.1 c) ∧
    (∀ s ∈ vis, p.isGoalState s = false) ∧
    (∀ s ∈ vis, ∀ x ∈ p.getSuccessors s, x.1 ∈ vis ∨ ∃ q, (x.1, q) ∈ fr) ∧
    (p.getStartState ∈ vis ∨ ∃ q, (p.getStartState, q) ∈ fr)

/-! ### Instrumented variants recording the expanded states

Each traced loop is the same loop, additionally accumulating (in order)
the states whose successors are generated, i.e. the arguments of the
`getSuccessors` calls. -/
/-- Instrumented `depthFirstSearch` loop. -/
def dfsAuxT (p : SearchProblem S A) :
    Nat → List (S × List A) → List S → List S → List S × Option (List A)
  | 0, _, _, acc => (acc, none)
  | _ + 1, [], _, acc => (acc, some [])
  | fuel + 1, (s, path) :: rest, visited, acc =>
    if p.isGoalState s then (acc, some path)
    else if s ∈ visited then dfsAuxT p fuel rest visited acc
    else
      dfsAuxT p fuel
        (((p.getSuccessors s).map (fun x => (x.1, path ++ [x.2.1]))).reverse ++ rest)
        (s :: visited) (acc ++ [s])

/-- The states expanded by a `depthFirstSearch` run, in order. -/
def dfsExpanded (p : SearchProblem S A) (fuel : Nat) : List S :=
  (dfsAuxT p fuel [(p.getStartState, [])] [] []).1

/-- Instrumented `breadthFirstSearch` loop. -/
def bfsAuxT (p : SearchProblem S A) :
    Nat → List (S × List A) → List S → List S → List S × Option (List A)
  | 0, _, _, acc => (acc, none)
  | _ + 1, [], _, acc => (acc, some [])
  | fuel + 1, (s, path) :: rest, visited, acc =>
    if p.isGoalState s then (acc, some path)
    else if s ∈ visited then bfsAuxT p fuel rest visited acc
    else
      bfsAuxT p fuel
        (rest ++ (p.getSuccessors s).map (fun x => (x.1, path ++ [x.2.1])))
        (s :: visited) (acc ++ [s])

/-- The states expanded by a `breadthFirstSearch` run, in order. -/
def bfsExpanded (p : SearchProblem S A) (fuel : Nat) : List S :=
  (bfsAuxT p fuel [(p.getStartState, [])] [] []).1

/-- Instrumented `uniformCostSearch` loop, recording (state, accumulated
cost) at each expansion. -/
def ucsAuxT (p : SearchProblem S A) :
    Nat → List (Entry S A × Nat) → List (S × Nat) → List (S × Nat) →
      List (S × Nat) × Option (List A)
  | 0, _, _, acc => (acc, none)
  | fuel + 1, frontier, visited, acc =>
    match popMin frontier with
    | none => (acc, some [])
    | some (e, rest) =>
      if p.isGoalState e.1.state then (acc, some e.1.path)
      else if improves visited e.1.state e.1.cost then
        ucsAuxT p fuel
          (rest ++ ucsExpandEntries p (updateV visited e.1.state e.1.cost)
            e.1.state e.1.path e.1.cost)
          (updateV visited e.1.state e.1.cost) (acc ++ [(e.1.state, e.1.cost)])
      else ucsAuxT p fuel rest visited acc

/-- The (state, cost) expansion events of a `uniformCostSearch` run. -/
def ucsExpanded (p : SearchProblem S A) (fuel : Nat) : List (S × Nat) :=
  (ucsAuxT p fuel [(Entry.mk p.getStartState [] 0, 0)] [] []).1

/-- Instrumented `aStarSearch` loop, recording (state, accumulated cost)
at each expansion. -/
def aStarAuxT (p : SearchProblem S A) (h : S → SearchProblem S A → Nat) :
    Nat → List (Entry S A × Nat) → List (S × Nat) → List (S × Nat) →
      List (S × Nat) × Option (List A)
  | 0, _, _, acc => (acc, none)
  | fuel + 1, frontier, visited, acc =>
    match popMin frontier with
    | none => (acc, some [])
    | some (e, rest) =>
      if p.isGoalState e.1.state then (acc, some e.1.path)
      else if improves visited e.1.state e.1.cost then
        aStarAuxT p h fuel
          (rest ++ aStarExpandEntries p h (updateV visited e.1.state e.1.cost)
            e.1.state e.1.path e.1.cost)
          (updateV visited e.1.state e.1.cost) (acc ++ [(e.1.state, e.1.cost)])
      else aStarAuxT p h fuel rest visited acc

/-- The (state, cost) expansion events of an `aStarSearch` run. -/
def aStarExpanded (p : SearchProblem S A) (h : S → SearchProblem S A → Nat)
    (fuel : Nat) : List (S × Nat) :=
  (aStarAuxT p h fuel [(Entry.mk p.getStartState [] 0, 0 + h p.getStartState p)] [] []).1

/-- In a trace of expansion events, later expansions of the same state
carry strictly smaller accumulated cost. -/
def StrictPerState (tr : List (S × Nat)) : Prop :=
  tr.Pairwise (fun e1 e2 => e1.1 = e2.1 → e2.2 < e1.2)

/-! ### Concrete problem instances -/
/-- The four-state scenario of the spec: start 0, intermediate states 1
and 2, goal 3; edges 0→1 (action 10, cost 1), 0→2 (action 20, cost 2),
1→3 (action 30, cost 5), 2→3 (action 31, cost 1). -/
def exProblem : SearchProblem Nat Nat where
  getStartState := 0
  isGoalState := fun s => s == 3
  getSuccessors := fun s =>
    match s with
    | 0 => [(1, 10, 1), (2, 20, 2)]
    | 1 => [(3, 30, 5)]
    | 2 => [(3, 31, 1)]
    | _ => []

/-- A goal-free two-state cycle 0 ↔ 1, each step cost 1. -/
def cycleProblem : SearchProblem Nat Nat where
  getStartState := 0
  isGoalState := fun _ => false
  getSuccessors := fun s =>
    match s with
    | 0 => [(1, 10, 1)]
    | 1 => [(0, 20, 1)]
    | _ => []

/-- A problem whose start state is already a goal (and has a successor,
which must never be generated). -/
def goalStartProblem : SearchProblem Nat Nat where
  getStartState := 0
  isGoalState := fun s => s == 0
  getSuccessors := fun _ => [(1, 5, 1)]

/-- A two-edge chain 0→1→2 with goal 2, step costs 1 and 7. -/
def chainProblemA : SearchProblem Nat Nat where
  getStartState := 0
  isGoalState := fun s => s == 2
  getSuccessors := fun s =>
    match s with
    | 0 => [(1, 10, 1)]
    | 1 => [(2, 20, 7)]
    | _ => []

/-- The same chain as `chainProblemA` with different step costs (3, 4). -/
def chainProblemB : SearchProblem Nat Nat where
  getStartState := 0
  isGoalState := fun s => s == 2
  getSuccessors := fun s =>
    match s with
    | 0 => [(1, 10, 3)]
    | 1 => [(2, 20, 4)]
    | _ => []

/-- The path-validity conclusion for one returned action sequence: a
non-empty result replays to a goal state; an empty result means the start
state is a goal or no reachable state is a goal. -/
def ValidResult (p : SearchProblem S A) (res : List A) : Prop :=
  (res ≠ [] → ∃ v c, CostPath p p.getStartState res v c ∧ p.isGoalState v = true) ∧
    (res = [] → p.isGoalState p.getStartState = true ∨
      ∀ s, Reaches p s → p.isGoalState s = false)

/-! ### Basic lemmas about the priority queue model -/
theorem popMin_isSome {α : Type} (e : α × Nat) (rest : List (α × Nat)) :
    (popMin (e :: rest)).isSome = true := by
  simp only [popMin]
  cases popMin rest with
  | none => rfl
  | some pr =>
    obtain ⟨m, rest'⟩ := pr
    dsimp only
    split <;> rfl

theorem popMin_none {α : Type} {l : List (α × Nat)} (h : popMin l = none) : l = [] := by
  cases l with
  | nil => rfl
  | cons e rest =>
    have := popMin_isSome e rest
    rw [h] at this
    simp at this

theorem popMin_spec {α : Type} :
    ∀ (l : List (α × Nat)) (e : α × Nat) (l' : List (α × Nat)), popMin l = some (e, l') →
      e ∈ l ∧ (∀ x ∈ l, e.2 ≤ x.2) ∧ (∀ x ∈ l, x = e ∨ x ∈ l') ∧
        (∀ x ∈ l', x ∈ l) ∧ l'.length + 1 = l.length := by
  intro l
  induction l with
  | nil => intro e l' h; simp [popMin] at h
  | cons a rest ih =>
    intro e l' h
    simp only [popMin] at h
    cases hpm : popMin rest with
    | none =>
      rw [hpm] at h
      have hrest : rest = [] := popMin_none hpm
      simp only [Option.some.injEq, Prod.mk.injEq] at h
      obtain ⟨he, hl'⟩ := h
      subst he; subst hl'; subst hrest
      refine ⟨List.mem_cons_self a [], ?_, ?_, ?_, rfl⟩
      · intro x hx
        rcases List.mem_cons.mp hx with h1 | h1
        · subst h1; exact Nat.le_refl _
        · simp at h1
      · intro x hx
        rcases List.mem_cons.mp hx with h1 | h1
        · exact Or.inl h1
        · simp at h1
      · intro x hx; simp at hx
    | some pr =>
      rw [hpm] at h
      obtain ⟨m, rest'⟩ := pr
      obtain ⟨hmem, hmin, hcases, hsub, hlen⟩ := ih m rest' hpm
      dsimp only at h
      split at h
      case isTrue hle =>
        simp only [Option.some.injEq, Prod.mk.injEq] at h
        obtain ⟨he, hl'⟩ := h
        subst he; subst hl'
        refine ⟨List.mem_cons_self _ _, ?_, ?_, ?_, rfl⟩
        · intro x hx
          rcases List.mem_cons.mp hx with h1 | h1
          · subst h1; exact Nat.le_refl _
          · exact Nat.le_trans hle (hmin x h1)
        · intro x hx
          rcases List.mem_cons.mp hx with h1 | h1
          · exact Or.inl h1
          · exact Or.inr h1
        · intro x hx; exact List.mem_cons_of_mem a hx
      case isFalse hgt =>
        simp only [Option.some.injEq, Prod.mk.injEq] at h
        obtain ⟨he, hl'⟩ := h
        subst he; subst hl'
        refine ⟨List.mem_cons_of_mem a hmem, ?_, ?_, ?_, ?_⟩
        · intro x hx
          rcases List.mem_cons.mp hx with h1 | h1
          · subst h1; exact Nat.le_of_lt (Nat.lt_of_not_le hgt)
          · exact hmin x h1
        · intro x hx
          rcases List.mem_cons.mp hx with h1 | h1
          · subst h1; exact Or.inr (List.mem_cons_self x rest')
          · rcases hcases x h1 with h2 | h2
            · exact Or.inl h2
            · exact Or.inr (List.mem_cons_of_mem a h2)
        · intro x hx
          rcases List.mem_cons.mp hx with h1 | h1
          · subst h1; exact List.mem_cons_self x rest
          · exact List.mem_cons_of_mem a (hsub x h1)
        · simp only [List.length_cons]
          omega

theorem popMin_mem {α : Type} {l : List (α × Nat)} {e : α × Nat} {l' : List (α × Nat)}
    (h : popMin l = some (e, l')) : e ∈ l :=
  (popMin_spec l e l' h).1

theorem popMin_min {α : Type} {l : List (α × Nat)} {e : α × Nat} {l' : List (α × Nat)}
    (h : popMin l = some (e, l')) : ∀ x ∈ l, e.2 ≤ x.2 :=
  (popMin_spec l e l' h).2.1

theorem popMin_cases {α : Type} {l : List (α × Nat)} {e : α × Nat} {l' : List (α × Nat)}
    (h : popMin l = some (e, l')) : ∀ x ∈ l, x = e ∨ x ∈ l' :=
  (popMin_spec l e l' h).2.2.1

theorem popMin_sub {α : Type} {l : List (α × Nat)} {e : α × Nat} {l' : List (α × Nat)}
    (h : popMin l = some (e, l')) : ∀ x ∈ l', x ∈ l :=
  (popMin_spec l e l' h).2.2.2.1

theorem popMin_length {α : Type} {l : List (α × Nat)} {e : α × Nat} {l' : List (α × Nat)}
    (h : popMin l = some (e, l')) : l'.length + 1 = l.length :=
  (popMin_spec l e l' h).2.2.2.2

/-! ### Basic lemmas about the best-cost map model -/
theorem lookupV_updateV_self (v : List (S × Nat)) (s : S) (c : Nat) :
    lookupV (updateV v s c) s = some c := by
  induction v with
  | nil => simp [updateV, lookupV]
  | cons a rest ih =>
    obtain ⟨t, m⟩ := a
    simp only [updateV]
    split
    case isTrue hst => simp [lookupV]
    case isFalse hst => simp only [lookupV, if_neg hst]; exact ih

theorem lookupV_updateV_ne (v : List (S × Nat)) (s u : S) (c : Nat) (hne : u ≠ s) :
    lookupV (updateV v s c) u = lookupV v u := by
  induction v with
  | nil => simp [updateV, lookupV, hne]
  | cons a rest ih =>
    obtain ⟨t, m⟩ := a
    simp only [updateV]
    split
    case isTrue hst =>
      subst hst
      simp [lookupV, hne]
    case isFalse hst =>
      simp only [lookupV]
      split
      · rfl
      · exact ih

theorem lookupV_none_iff (v : List (S × Nat)) (s : S) :
    lookupV v s = none ↔ s ∉ v.map Prod.fst := by
  induction v with
  | nil => simp [lookupV]
  | cons a rest ih =>
    obtain ⟨t, m⟩ := a
    simp only [lookupV, List.map_cons, List.mem_cons]
    split
    case isTrue h => subst h; simp
    case isFalse h => simp [h, ih]

theorem keysV_updateV_mem (v : List (S × Nat)) (s : S) (c m : Nat)
    (h : lookupV v s = some m) : (updateV v s c).map Prod.fst = v.map Prod.fst := by
  induction v with
  | nil => simp [lookupV] at h
  | cons a rest ih =>
    obtain ⟨t, m'⟩ := a
    simp only [lookupV] at h
    simp only [updateV]
    split
    case isTrue hst => subst hst; simp
    case isFalse hst =>
      rw [if_neg hst] at h
      simp only [List.map_cons]
      rw [ih h]

theorem keysV_updateV_new (v : List (S × Nat)) (s : S) (c : Nat)
    (h : lookupV v s = none) : (updateV v s c).map Prod.fst = v.map Prod.fst ++ [s] := by
  induction v with
  | nil => simp [updateV]
  | cons a rest ih =>
    obtain ⟨t, m'⟩ := a
    simp only [lookupV] at h
    simp only [updateV]
    split
    case isTrue hst => rw [if_pos hst] at h; simp at h
    case isFalse hst =>
      rw [if_neg hst] at h
      simp only [List.map_cons, List.cons_append]
      rw [ih h]

theorem sumV_updateV_lt (v : List (S × Nat)) (s : S) (c m : Nat)
    (h : lookupV v s = some m) (hc : c < m) : sumV (updateV v s c) < sumV v := by
  induction v with
  | nil => simp [lookupV] at h
  | cons a rest ih =>
    obtain ⟨t, m'⟩ := a
    simp only [lookupV] at h
    simp only [updateV]
    split
    case isTrue hst =>
      rw [if_pos hst] at h
      simp only [Option.some.injEq] at h
      subst h
      simp only [sumV, List.map_cons, List.sum_cons]
      omega
    case isFalse hst =>
      rw [if_neg hst] at h
      simp only [sumV, List.map_cons, List.sum_cons]
      have := ih h
      simp only [sumV] at this
      omega

theorem improves_true_iff (v : List (S × Nat)) (s : S) (c : Nat) :
    improves v s c = true ↔
      lookupV v s = none ∨ ∃ m, lookupV v s = some m ∧ c < m := by
  unfold improves
  cases h : lookupV v s with
  | none => simp
  | some m => simp

theorem improves_false_iff (v : List (S × Nat)) (s : S) (c : Nat) :
    improves v s c = false ↔ ∃ m, lookupV v s = some m ∧ m ≤ c := by
  unfold improves
  cases h : lookupV v s with
  | none => simp
  | some m =>
    simp only [decide_eq_false_iff_not, Nat.not_lt, Option.some.injEq]
    constructor
    · intro h1; exact ⟨m, rfl, h1⟩
    · intro ⟨m', hm', hle⟩; subst hm'; exact hle

/-! ### Basic lemmas about replayed paths -/
theorem CostPath.nil_inv {p : SearchProblem S A} {s v : S} {c : Nat}
    (h : CostPath p s [] v c) : s = v ∧ c = 0 := by
  cases h
  exact ⟨rfl, rfl⟩

theorem CostPath.snoc {p : SearchProblem S A} {s t u : S} {acts : List A} {a : A}
    {c w : Nat} (h : CostPath p s acts t c) (hx : (u, a, w) ∈ p.getSuccessors t) :
    CostPath p s (acts ++ [a]) u (c + w) := by
  induction h with
  | nil s =>
    rw [List.nil_append, Nat.zero_add]
    have hw : w = w + 0 := (Nat.add_zero w).symm
    rw [hw]
    exact CostPath.cons hx (CostPath.nil u)
  | cons e h' ih =>
    rename_i s' t' v' a' w' c' acts'
    rw [List.cons_append, Nat.add_assoc]
    exact CostPath.cons e (ih hx)

theorem Reaches.start (p : SearchProblem S A) : Reaches p p.getStartState :=
  ⟨[], 0, CostPath.nil _⟩

theorem Reaches.step {p : SearchProblem S A} {s : S} {x : S × A × Nat}
    (h : Reaches p s) (hx : x ∈ p.getSuccessors s) : Reaches p x.1 := by
  obtain ⟨acts, c, hp⟩ := h
  obtain ⟨t, a, w⟩ := x
  exact ⟨acts ++ [a], c + w, hp.snoc hx⟩

/-! ### A* with the zero heuristic is exactly uniform-cost search -/
theorem aStarExpandEntries_null (p : SearchProblem S A) (vis : List (S × Nat)) (s : S)
    (path : List A) (g : Nat) :
    aStarExpandEntries p nullHeuristic vis s path g = ucsExpandEntries p vis s path g := rfl

theorem aStarAux_null (p : SearchProblem S A) :
    ∀ fuel fr vis, aStarAux p nullHeuristic fuel fr vis = ucsAux p fuel fr vis := by
  intro fuel
  induction fuel with
  | zero => intro fr vis; rfl
  | succ n ih =>
    intro fr vis
    simp only [aStarAux, ucsAux]
    cases popMin fr with
    | none => rfl
    | some pr =>
      obtain ⟨e, rest⟩ := pr
      dsimp only
      split
      · rfl
      · split
        · rw [aStarExpandEntries_null]; exact ih _ _
        · exact ih _ _

theorem aStarSearch_null (p : SearchProblem S A) (fuel : Nat) :
    aStarSearch p nullHeuristic fuel = uniformCostSearch p fuel :=
  aStarAux_null p fuel _ _

theorem astarInv_init (p : SearchProblem S A) (h : S → SearchProblem S A → Nat)
    (pri : Nat) (hpri : pri = 0 + h p.getStartState p) :
    AstarInv p h [(Entry.mk p.getStartState [] 0, pri)] [] := by
  refine ⟨?_, ?_, ?_, ?_⟩
  · intro e he
    simp only [List.mem_singleton] at he
    subst he
    exact ⟨CostPath.nil _, by simpa using hpri⟩
  · intro s c hc; simp [lookupV] at hc
  · intro s c hc; simp [lookupV] at hc
  · exact Or.inr ⟨_, List.mem_singleton_self _, rfl, rfl⟩

theorem mem_aStarExpandEntries (p : SearchProblem S A) (h : S → SearchProblem S A → Nat)
    (vis : List (S × Nat)) (s : S) (path : List A) (g : Nat) (e : Entry S A × Nat) :
    e ∈ aStarExpandEntries p h vis s path g ↔
      ∃ x ∈ p.getSuccessors s, improves vis x.1 (g + x.2.2) = true ∧
        e = (Entry.mk x.1 (path ++ [x.2.1]) (g + x.2.2), g + x.2.2 + h x.1 p) := by
  simp only [aStarExpandEntries, List.mem_map, List.mem_filter]
  constructor
  · intro ⟨x, ⟨hx, himp⟩, he⟩
    exact ⟨x, hx, himp, he.symm⟩
  · intro ⟨x, hx, himp, he⟩
    exact ⟨x, ⟨hx, himp⟩, he.symm⟩

theorem astarInv_skip (p : SearchProblem S A) (h : S → SearchProblem S A → Nat)
    {fr rest : List (Entry S A × Nat)} {vis : List (S × Nat)} {e₀ : Entry S A × Nat}
    (hInv : AstarInv p h fr vis) (hpop : popMin fr = some (e₀, rest))
    (himp : improves vis e₀.1.state e₀.1.cost = false) :
    AstarInv p h rest vis := by
  obtain ⟨hfr, hvis, hrel, hanc⟩ := hInv
  obtain ⟨m, hm, hmle⟩ := (improves_false_iff vis e₀.1.state e₀.1.cost).mp himp
  refine ⟨fun e he => hfr e (popMin_sub hpop e he), hvis, ?_, ?_⟩
  · intro s c hc x hx
    rcases hrel s c hc x hx with hleft | ⟨e, he, hes, hec⟩
    · exact Or.inl hleft
    · rcases popMin_cases hpop e he with he₀ | hrest
      · subst he₀
        exact Or.inl ⟨m, hes ▸ hm, Nat.le_trans hmle hec⟩
      · exact Or.inr ⟨e, hrest, hes, hec⟩
  · rcases hanc with hleft | ⟨e, he, hes, hec⟩
    · exact Or.inl hleft
    · rcases popMin_cases hpop e he with he₀ | hrest
      · subst he₀
        left
        rw [hes] at hm
        rw [hec] at hmle
        have : m = 0 := Nat.le_zero.mp hmle
        rw [this] at hm
        exact hm
      · exact Or.inr ⟨e, hrest, hes, hec⟩

theorem astarInv_expand (p : SearchProblem S A) (h : S → SearchProblem S A → Nat)
    {fr rest : List (Entry S A × Nat)} {vis : List (S × Nat)} {e₀ : Entry S A × Nat}
    (hInv : AstarInv p h fr vis) (hpop : popMin fr = some (e₀, rest))
    (hng : p.isGoalState e₀.1.state = false)
    (himp : improves vis e₀.1.state e₀.1.cost = true) :
    AstarInv p h
      (rest ++ aStarExpandEntries p h (updateV vis e₀.1.state e₀.1.cost)
        e₀.1.state e₀.1.path e₀.1.cost)
      (updateV vis e₀.1.state e₀.1.cost) := by
  obtain ⟨hfr, hvis, hrel, hanc⟩ := hInv
  have hge₀ : goodEntry p h e₀ := hfr e₀ (popMin_mem hpop)
  refine ⟨?_, ?_, ?_, ?_⟩
  · intro e he
    rcases List.mem_append.mp he with hrest | hnew
    · exact hfr e (popMin_sub hpop e hrest)
    · obtain ⟨x, hx, _, hex⟩ := (mem_aStarExpandEntries p h _ _ _ _ e).mp hnew
      subst hex
      exact ⟨hge₀.1.snoc hx, rfl⟩
  · intro s c hc
    by_cases hs : s = e₀.1.state
    · subst hs
      rw [lookupV_updateV_self] at hc
      simp only [Option.some.injEq] at hc
      subst hc
      exact ⟨⟨e₀.1.path, hge₀.1⟩, hng⟩
    · rw [lookupV_updateV_ne vis e₀.1.state s e₀.1.cost hs] at hc
      exact hvis s c hc
  · intro s c hc x hx
    by_cases hs : s = e₀.1.state
    · subst hs
      rw [lookupV_updateV_self] at hc
      simp only [Option.some.injEq] at hc
      subst hc
      cases himp' : improves (updateV vis e₀.1.state e₀.1.cost) x.1 (e₀.1.cost + x.2.2) with
      | true =>
        refine Or.inr ⟨(Entry.mk x.1 (e₀.1.path ++ [x.2.1]) (e₀.1.cost + x.2.2),
          e₀.1.cost + x.2.2 + h x.1 p), ?_, rfl, Nat.le_refl _⟩
        refine List.mem_append.mpr (Or.inr ?_)
        exact (mem_aStarExpandEntries p h _ _ _ _ _).mpr ⟨x, hx, himp', rfl⟩
      | false =>
        obtain ⟨m, hm, hmle⟩ :=
          (improves_false_iff _ x.1 (e₀.1.cost + x.2.2)).mp himp'
        exact Or.inl ⟨m, hm, hmle⟩
    · rw [lookupV_updateV_ne vis e₀.1.state s e₀.1.cost hs] at hc
      rcases hrel s c hc x hx with ⟨c', hc', hle⟩ | ⟨e, he, hes, hec⟩
      · by_cases hxs : x.1 = e₀.1.state
        · rcases (improves_true_iff vis e₀.1.state e₀.1.cost).mp himp with hnone | ⟨m, hm, hlt⟩
          · rw [hxs] at hc'; rw [hc'] at hnone; exact absurd hnone (by simp)
          · rw [hxs] at hc'; rw [hc'] at hm
            simp only [Option.some.injEq] at hm
            subst hm
            refine Or.inl ⟨e₀.1.cost, ?_, ?_⟩
            · rw [hxs]; exact lookupV_updateV_self vis e₀.1.state e₀.1.cost
            · exact Nat.le_trans (Nat.le_of_lt hlt) hle
        · refine Or.inl ⟨c', ?_, hle⟩
          rw [lookupV_updateV_ne vis e₀.1.state x.1 e₀.1.cost hxs]
          exact hc'
      · rcases popMin_cases hpop e he with he₀ | hrest
        · subst he₀
          refine Or.inl ⟨e.1.cost, ?_, hec⟩
          rw [← hes]
          exact lookupV_updateV_self vis e.1.state e.1.cost
        · exact Or.inr ⟨e, List.mem_append.mpr (Or.inl hrest), hes, hec⟩
  · rcases hanc with hleft | ⟨e, he, hes, hec⟩
    · by_cases hs : p.getStartState = e₀.1.state
      · rcases (improves_true_iff vis e₀.1.state e₀.1.cost).mp himp with hnone | ⟨m, hm, hlt⟩
        · rw [hs] at hleft; rw [hleft] at hnone; exact absurd hnone (by simp)
        · rw [hs] at hleft; rw [hleft] at hm
          simp only [Option.some.injEq] at hm
          subst hm
          exact absurd hlt (Nat.not_lt_zero _).elim
      · left
        rw [lookupV_updateV_ne vis e₀.1.state p.getStartState e₀.1.cost hs]
        exact hleft
    · rcases popMin_cases hpop e he with he₀ | hrest
      · subst he₀
        left
        rw [← hes, ← hec]
        exact lookupV_updateV_self vis e.1.state e.1.cost
      · exact Or.inr ⟨e, List.mem_append.mpr (Or.inl hrest), hes, hec⟩

/-- Coverage: if a state settled at cost `c₀` has a goal-reaching action
sequence of cost `c`, then the frontier holds an entry sitting on such a
sequence, with accumulated cost plus remaining cost at most `c₀ + c`. -/
theorem covered (p : SearchProblem S A) {fr : List (Entry S A × Nat)}
    {vis : List (S × Nat)} (hrel : relaxed p fr vis) (hvis : goodVis p vis) :
    ∀ (s : S) (acts : List A) (v : S) (c : Nat), CostPath p s acts v c →
      p.isGoalState v = true → ∀ c₀, lookupV vis s = some c₀ →
      ∃ e ∈ fr, ∃ bs csuf, CostPath p (e : Entry S A × Nat).1.state bs v csuf ∧
        e.1.cost + csuf ≤ c₀ + c := by
  intro s acts v c hp
  induction hp with
  | nil s' =>
    intro hgoal c₀ hc₀
    rw [(hvis s' c₀ hc₀).2] at hgoal
    exact absurd hgoal (by simp)
  | cons hx hp' ih =>
    rename_i s' t v' a w c' acts'
    intro hgoal c₀ hc₀
    rcases hrel s' c₀ hc₀ (t, a, w) hx with ⟨c₁, hc₁, hle⟩ | ⟨e, he, hes, hec⟩
    · have hle' : c₁ ≤ c₀ + w := hle
      obtain ⟨e, he, bs, csuf, hcp, hb⟩ := ih hgoal c₁ hc₁
      exact ⟨e, he, bs, csuf, hcp, by omega⟩
    · have hec' : e.1.cost ≤ c₀ + w := hec
      refine ⟨e, he, acts', c', ?_, by omega⟩
      rw [hes]
      exact hp'

/-- Coverage from the start state: any goal-reaching action sequence of
cost `c` from the start is covered by some frontier entry. -/
theorem covered_start (p : SearchProblem S A) (h : S → SearchProblem S A → Nat)
    {fr : List (Entry S A × Nat)} {vis : List (S × Nat)}
    (hInv : AstarInv p h fr vis) :
    ∀ (acts : List A) (v : S) (c : Nat), CostPath p p.getStartState acts v c →
      p.isGoalState v = true →
      ∃ e ∈ fr, ∃ bs csuf, CostPath p (e : Entry S A × Nat).1.state bs v csuf ∧
        e.1.cost + csuf ≤ c := by
  intro acts v c hp hgoal
  obtain ⟨_, hvis, hrel, hanc⟩ := hInv
  rcases hanc with hleft | ⟨e, he, hes, hec⟩
  · obtain ⟨e, he, bs, csuf, hcp, hb⟩ :=
      covered p hrel hvis p.getStartState acts v c hp hgoal 0 hleft
    exact ⟨e, he, bs, csuf, hcp, by omega⟩
  · refine ⟨e, he, acts, c, ?_, by omega⟩
    rw [hes]
    exact hp

/-- Partial correctness of the A* loop: under the loop invariant and an
admissible heuristic, whenever the loop returns a value and some
goal-reaching action sequence exists, the returned sequence replays to a
goal state at a cost no greater than that of any goal-reaching action
sequence. -/
theorem astar_sound (p : SearchProblem S A) (h : S → SearchProblem S A → Nat)
    (hadm : Admissible p h) :
    ∀ (fuel : Nat) (fr : List (Entry S A × Nat)) (vis : List (S × Nat))
      (res : List A), AstarInv p h fr vis → aStarAux p h fuel fr vis = some res →
      (∃ acts v c, CostPath p p.getStartState acts v c ∧ p.isGoalState v = true) →
      ∃ v' g, CostPath p p.getStartState res v' g ∧ p.isGoalState v' = true ∧
        ∀ acts v c, CostPath p p.getStartState acts v c → p.isGoalState v = true →
          g ≤ c := by
  intro fuel
  induction fuel with
  | zero => intro fr vis res _ hrun _; simp [aStarAux] at hrun
  | succ n ih =>
    intro fr vis res hInv hrun hex
    rw [aStarAux] at hrun
    cases hpop : popMin fr with
    | none =>
      obtain ⟨acts, v, c, hcp, hgl⟩ := hex
      obtain ⟨e, he, _⟩ := covered_start p h hInv acts v c hcp hgl
      rw [popMin_none hpop] at he
      exact absurd he (by simp)
    | some pr =>
      obtain ⟨e₀, rest⟩ := pr
      rw [hpop] at hrun
      dsimp only at hrun
      split at hrun
      case isTrue hgl =>
        simp only [Option.some.injEq] at hrun
        subst hrun
        have hge₀ : goodEntry p h e₀ := hInv.1 e₀ (popMin_mem hpop)
        refine ⟨e₀.1.state, e₀.1.cost, hge₀.1, hgl, ?_⟩
        intro acts v c hcp hv
        obtain ⟨e', he', bs, csuf, hcp', hb⟩ := covered_start p h hInv acts v c hcp hv
        have hmin : e₀.2 ≤ e'.2 := popMin_min hpop e' he'
        have hge' : goodEntry p h e' := hInv.1 e' he'
        have hh : h e'.1.state p ≤ csuf := hadm e'.1.state bs v csuf hcp' hv
        have h₀ : e₀.2 = e₀.1.cost + h e₀.1.state p := hge₀.2
        have h' : e'.2 = e'.1.cost + h e'.1.state p := hge'.2
        omega
      case isFalse hgl =>
        split at hrun
        case isTrue himp =>
          exact ih _ _ res
            (astarInv_expand p h hInv hpop (Bool.of_not_eq_true hgl) himp) hrun hex
        case isFalse himp =>
          exact ih _ _ res
            (astarInv_skip p h hInv hpop (Bool.of_not_eq_true himp)) hrun hex

/-! ### Termination of the search loops on finite reachable state spaces -/
theorem strongNat {P : Nat → Prop} (h : ∀ n, (∀ m, m < n → P m) → P n) : ∀ n, P n := by
  have aux : ∀ n m, m < n → P m := by
    intro n
    induction n with
    | zero => intro m hm; exact absurd hm (Nat.not_lt_zero m)
    | succ n ih =>
      intro m hm
      have hcase : m < n ∨ m = n := by omega
      rcases hcase with h1 | h2
      · exact ih m h1
      · subst h2; exact h _ ih
  intro n
  exact h n (aux n)

theorem countB_le_of_imp {α : Type} (l : List α) (P Q : α → Bool)
    (himp : ∀ x ∈ l, Q x = true → P x = true) : countB Q l ≤ countB P l := by
  induction l with
  | nil => exact Nat.le_refl _
  | cons a t ih =>
    have ht := ih (fun x hx => himp x (List.mem_cons_of_mem a hx))
    have ha := himp a (List.mem_cons_self a t)
    simp only [countB]
    cases hQ : Q a with
    | false =>
      cases hP : P a with
      | false => simp; omega
      | true => simp; omega
    | true => rw [ha hQ]; simp; omega

theorem countB_lt_of_mem {α : Type} (l : List α) (P Q : α → Bool)
    (himp : ∀ x ∈ l, Q x = true → P x = true) (s : α) (hs : s ∈ l)
    (hP : P s = true) (hQ : Q s = false) : countB Q l < countB P l := by
  induction l with
  | nil => simp at hs
  | cons a t ih =>
    have ht := countB_le_of_imp t P Q (fun x hx => himp x (List.mem_cons_of_mem a hx))
    have ha := himp a (List.mem_cons_self a t)
    simp only [countB]
    rcases List.mem_cons.mp hs with h1 | h1
    · subst h1
      rw [hP, hQ]
      simp
      omega
    · have hlt := ih (fun x hx => himp x (List.mem_cons_of_mem a hx)) h1
      cases hQa : Q a with
      | false =>
        cases hPa : P a with
        | false => simp; omega
        | true => simp; omega
      | true => rw [ha hQa]; simp; omega

theorem unvisS_lt (L : List S) (vis : List S) (s : S) (hsL : s ∈ L) (hsv : s ∉ vis) :
    unvisS L (s :: vis) < unvisS L vis := by
  refine countB_lt_of_mem L.dedup _ _ ?_ s (List.mem_dedup.mpr hsL) ?_ ?_
  · intro x _ hx
    simp only [decide_eq_true_eq] at hx ⊢
    intro hmem
    exact hx (List.mem_cons_of_mem s hmem)
  · simpa using hsv
  · simp

theorem unvisK_lt_new (L : List S) (vis : List (S × Nat)) (s₀ : S) (g : Nat)
    (hsL : s₀ ∈ L) (hnone : lookupV vis s₀ = none) :
    unvisK L (updateV vis s₀ g) < unvisK L vis := by
  refine countB_lt_of_mem L.dedup _ _ ?_ s₀ (List.mem_dedup.mpr hsL) ?_ ?_
  · intro x _ hx
    simp only [decide_eq_true_eq, lookupV_none_iff] at hx ⊢
    rw [keysV_updateV_new vis s₀ g hnone] at hx
    intro hmem
    exact hx (List.mem_append_left _ hmem)
  · simpa using hnone
  · simp [lookupV_updateV_self]

theorem unvisK_eq_seen (L : List S) (vis : List (S × Nat)) (s₀ : S) (g m₀ : Nat)
    (hm : lookupV vis s₀ = some m₀) :
    unvisK L (updateV vis s₀ g) = unvisK L vis := by
  unfold unvisK
  have hfun : (fun s => decide (lookupV (updateV vis s₀ g) s = none)) =
      (fun s => decide (lookupV vis s = none)) := by
    funext x
    by_cases hx : x = s₀
    · subst hx
      rw [lookupV_updateV_self, hm]
      simp
    · rw [lookupV_updateV_ne vis s₀ x g hx]
  rw [hfun]

theorem lookupV_le_sumV (vis : List (S × Nat)) (s : S) (m : Nat)
    (h : lookupV vis s = some m) : m ≤ sumV vis := by
  induction vis with
  | nil => simp [lookupV] at h
  | cons a rest ih =>
    obtain ⟨t, m'⟩ := a
    simp only [lookupV] at h
    simp only [sumV, List.map_cons, List.sum_cons]
    split at h
    · simp only [Option.some.injEq] at h; omega
    · have := ih h; simp only [sumV] at this; omega

theorem dfs_term (p : SearchProblem S A) (L : List S)
    (hL : ∀ s, Reaches p s → s ∈ L) :
    ∀ k vis, unvisS L vis ≤ k →
      ∀ fr, (∀ e ∈ fr, Reaches p (e : S × List A).1) →
      ∃ fuel res, dfsAux p fuel fr vis = some res := by
  refine strongNat (fun k ihk => ?_)
  intro vis hk fr
  induction fr with
  | nil => intro _; exact ⟨1, [], rfl⟩
  | cons e rest ihfr =>
    intro hreach
    obtain ⟨s, path⟩ := e
    have hs : Reaches p s := hreach (s, path) (List.mem_cons_self _ _)
    by_cases hgl : p.isGoalState s = true
    · exact ⟨1, path, by simp [dfsAux, hgl]⟩
    · have hgl' : p.isGoalState s = false := Bool.of_not_eq_true hgl
      by_cases hvis : s ∈ vis
      · obtain ⟨fuel, res, hrun⟩ := ihfr (fun e he => hreach e (List.mem_cons_of_mem _ he))
        exact ⟨fuel + 1, res, by simp [dfsAux, hgl', hvis, hrun]⟩
      · have hsL : s ∈ L := hL s hs
        have hlt : unvisS L (s :: vis) < unvisS L vis := unvisS_lt L vis s hsL hvis
        have hreach' : ∀ e ∈ ((p.getSuccessors s).map
            (fun x => (x.1, path ++ [x.2.1]))).reverse ++ rest, Reaches p e.1 := by
          intro e he
          rcases List.mem_append.mp he with hnew | hold
          · rw [List.mem_reverse] at hnew
            obtain ⟨x, hx, hex⟩ := List.mem_map.mp hnew
            subst hex
            exact hs.step hx
          · exact hreach e (List.mem_cons_of_mem _ hold)
        obtain ⟨fuel, res, hrun⟩ :=
          ihk (unvisS L (s :: vis)) (by omega) (s :: vis) (Nat.le_refl _) _ hreach'
        exact ⟨fuel + 1, res, by simp [dfsAux, hgl', hvis, hrun]⟩

theorem bfs_term (p : SearchProblem S A) (L : List S)
    (hL : ∀ s, Reaches p s → s ∈ L) :
    ∀ k vis, unvisS L vis ≤ k →
      ∀ fr, (∀ e ∈ fr, Reaches p (e : S × List A).1) →
      ∃ fuel res, bfsAux p fuel fr vis = some res := by
  refine strongNat (fun k ihk => ?_)
  intro vis hk fr
  induction fr with
  | nil => intro _; exact ⟨1, [], rfl⟩
  | cons e rest ihfr =>
    intro hreach
    obtain ⟨s, path⟩ := e
    have hs : Reaches p s := hreach (s, path) (List.mem_cons_self _ _)
    by_cases hgl : p.isGoalState s = true
    · exact ⟨1, path, by simp [bfsAux, hgl]⟩
    · have hgl' : p.isGoalState s = false := Bool.of_not_eq_true hgl
      by_cases hvis : s ∈ vis
      · obtain ⟨fuel, res, hrun⟩ := ihfr (fun e he => hreach e (List.mem_cons_of_mem _ he))
        exact ⟨fuel + 1, res, by simp [bfsAux, hgl', hvis, hrun]⟩
      · have hsL : s ∈ L := hL s hs
        have hlt : unvisS L (s :: vis) < unvisS L vis := unvisS_lt L vis s hsL hvis
        have hreach' : ∀ e ∈ rest ++ (p.getSuccessors s).map
            (fun x => (x.1, path ++ [x.2.1])), Reaches p e.1 := by
          intro e he
          rcases List.mem_append.mp he with hold | hnew
          · exact hreach e (List.mem_cons_of_mem _ hold)
          · obtain ⟨x, hx, hex⟩ := List.mem_map.mp hnew
            subst hex
            exact hs.step hx
        obtain ⟨fuel, res, hrun⟩ :=
          ihk (unvisS L (s :: vis)) (by omega) (s :: vis) (Nat.le_refl _) _ hreach'
        exact ⟨fuel + 1, res, by simp [bfsAux, hgl', hvis, hrun]⟩

theorem astar_term (p : SearchProblem S A) (h : S → SearchProblem S A → Nat)
    (L : List S) (hL : ∀ s, Reaches p s → s ∈ L) :
    ∀ k m n vis fr, unvisK L vis ≤ k → sumV vis ≤ m → fr.length ≤ n →
      (∀ e ∈ fr, Reaches p (e : Entry S A × Nat).1.state) →
      ∃ fuel res, aStarAux p h fuel fr vis = some res := by
  refine strongNat (fun k ihk => ?_)
  refine strongNat (fun m ihm => ?_)
  refine strongNat (fun n ihn => ?_)
  intro vis fr hk hm hn hreach
  cases hpop : popMin fr with
  | none => exact ⟨1, [], by simp [aStarAux, hpop]⟩
  | some pr =>
    obtain ⟨e₀, rest⟩ := pr
    have hlen := popMin_length hpop
    have hres : ∀ e ∈ rest, Reaches p (e : Entry S A × Nat).1.state :=
      fun e he => hreach e (popMin_sub hpop e he)
    have h₀ : Reaches p e₀.1.state := hreach e₀ (popMin_mem hpop)
    by_cases hgl : p.isGoalState e₀.1.state = true
    · exact ⟨1, e₀.1.path, by simp [aStarAux, hpop, hgl]⟩
    · have hgl' : p.isGoalState e₀.1.state = false := Bool.of_not_eq_true hgl
      cases himp : improves vis e₀.1.state e₀.1.cost with
      | false =>
        have hn' : rest.length < n := by omega
        obtain ⟨fuel, res, hrun⟩ := ihn rest.length hn' vis rest hk hm (Nat.le_refl _) hres
        exact ⟨fuel + 1, res, by simp [aStarAux, hpop, hgl', himp, hrun]⟩
      | true =>
        have hreach' : ∀ e ∈ rest ++ aStarExpandEntries p h
            (updateV vis e₀.1.state e₀.1.cost) e₀.1.state e₀.1.path e₀.1.cost,
            Reaches p (e : Entry S A × Nat).1.state := by
          intro e he
          rcases List.mem_append.mp he with hold | hnew
          · exact hres e hold
          · obtain ⟨x, hx, _, hex⟩ := (mem_aStarExpandEntries p h _ _ _ _ e).mp hnew
            subst hex
            exact h₀.step hx
        rcases (improves_true_iff vis e₀.1.state e₀.1.cost).mp himp with
          hnone | ⟨m₀, hm₀, hltm⟩
        · have hsL : e₀.1.state ∈ L := hL _ h₀
          have hk' : unvisK L (updateV vis e₀.1.state e₀.1.cost) < unvisK L vis :=
            unvisK_lt_new L vis e₀.1.state e₀.1.cost hsL hnone
          obtain ⟨fuel, res, hrun⟩ :=
            ihk (unvisK L (updateV vis e₀.1.state e₀.1.cost)) (by omega)
              (sumV (updateV vis e₀.1.state e₀.1.cost)) _ _ _
              (Nat.le_refl _) (Nat.le_refl _) (Nat.le_refl _) hreach'
          exact ⟨fuel + 1, res, by simp [aStarAux, hpop, hgl', himp, hrun]⟩
        · have hksame : unvisK L (updateV vis e₀.1.state e₀.1.cost) = unvisK L vis :=
            unvisK_eq_seen L vis e₀.1.state e₀.1.cost m₀ hm₀
          have hsum : sumV (updateV vis e₀.1.state e₀.1.cost) < sumV vis :=
            sumV_updateV_lt vis e₀.1.state e₀.1.cost m₀ hm₀ hltm
          obtain ⟨fuel, res, hrun⟩ :=
            ihm (sumV (updateV vis e₀.1.state e₀.1.cost)) (by omega) _ _ _
              (by omega) (Nat.le_refl _) (Nat.le_refl _) hreach'
          exact ⟨fuel + 1, res, by simp [aStarAux, hpop, hgl', himp, hrun]⟩

/-! ### Path validity for all four search loops -/
/-- A visited set closed under successors and containing the start state
contains every reachable state. -/
theorem reach_closed_list (p : SearchProblem S A) {vis : List S}
    (hstart : p.getStartState ∈ vis)
    (hcl : ∀ s ∈ vis, ∀ x ∈ p.getSuccessors s, x.1 ∈ vis) :
    ∀ v, Reaches p v → v ∈ vis := by
  have haux : ∀ (s : S) (acts : List A) (v : S) (c : Nat), CostPath p s acts v c →
      s ∈ vis → v ∈ vis := by
    intro s acts v c hp
    induction hp with
    | nil s' => exact id
    | cons hx hp' ih =>
      intro hs
      exact ih (hcl _ hs _ hx)
  rintro v ⟨acts, c, hp⟩
  exact haux _ _ _ _ hp hstart

/-- A best-cost map closed under successors and recording the start state
records every reachable state. -/
theorem reach_settled (p : SearchProblem S A) {vis : List (S × Nat)}
    (hstart : ∃ c₀, lookupV vis p.getStartState = some c₀)
    (hcl : ∀ s c, lookupV vis s = some c → ∀ x ∈ p.getSuccessors s,
      ∃ cx, lookupV vis x.1 = some cx) :
    ∀ v, Reaches p v → ∃ cv, lookupV vis v = some cv := by
  have haux : ∀ (s : S) (acts : List A) (v : S) (c : Nat), CostPath p s acts v c →
      (∃ cs, lookupV vis s = some cs) → ∃ cv, lookupV vis v = some cv := by
    intro s acts v c hp
    induction hp with
    | nil s' => exact id
    | cons hx hp' ih =>
      rintro ⟨cs, hcs⟩
      exact ih (hcl _ cs hcs _ hx)
  rintro v ⟨acts, c, hp⟩
  exact haux _ _ _ _ hp hstart

theorem dfsInv_init (p : SearchProblem S A) : DfsInv p [(p.getStartState, [])] [] := by
  refine ⟨?_, ?_, ?_, ?_⟩
  · intro e he
    simp only [List.mem_singleton] at he
    subst he
    exact ⟨0, CostPath.nil _⟩
  · intro s hs; simp at hs
  · intro s hs; simp at hs
  · exact Or.inr ⟨[], List.mem_singleton_self _⟩

theorem dfsInv_skip (p : SearchProblem S A) {s : S} {path : List A}
    {rest : List (S × List A)} {vis : List S}
    (hInv : DfsInv p ((s, path) :: rest) vis) (hvis : s ∈ vis) :
    DfsInv p rest vis := by
  obtain ⟨hA, hB, hC, hD⟩ := hInv
  refine ⟨fun e he => hA e (List.mem_cons_of_mem _ he), hB, ?_, ?_⟩
  · intro s' hs' x hx
    rcases hC s' hs' x hx with hl | ⟨q, hq⟩
    · exact Or.inl hl
    · rcases List.mem_cons.mp hq with hh | ht
      · have hx1 : x.1 = s := congrArg Prod.fst hh
        rw [hx1]
        exact Or.inl hvis
      · exact Or.inr ⟨q, ht⟩
  · rcases hD with hl | ⟨q, hq⟩
    · exact Or.inl hl
    · rcases List.mem_cons.mp hq with hh | ht
      · have hx1 : p.getStartState = s := congrArg Prod.fst hh
        rw [hx1]
        exact Or.inl hvis
      · exact Or.inr ⟨q, ht⟩

theorem dfsInv_expand (p : SearchProblem S A) {s : S} {path : List A}
    {rest : List (S × List A)} {vis : List S}
    (hInv : DfsInv p ((s, path) :: rest) vis) (hgl : p.isGoalState s = false)
    (hvis : s ∉ vis) :
    DfsInv p (((p.getSuccessors s).map (fun x => (x.1, path ++ [x.2.1]))).reverse ++ rest)
      (s :: vis) := by
  obtain ⟨hA, hB, hC, hD⟩ := hInv
  obtain ⟨c₀, hc₀⟩ := hA (s, path) (List.mem_cons_self _ _)
  have hpush : ∀ x ∈ p.getSuccessors s,
      (x.1, path ++ [x.2.1]) ∈
        ((p.getSuccessors s).map (fun x => (x.1, path ++ [x.2.1]))).reverse ++ rest := by
    intro x hx
    exact List.mem_append_left _ (List.mem_reverse.mpr (List.mem_map_of_mem _ hx))
  refine ⟨?_, ?_, ?_, ?_⟩
  · intro e he
    rcases List.mem_append.mp he with hnew | hold
    · rw [List.mem_reverse] at hnew
      obtain ⟨x, hx, hex⟩ := List.mem_map.mp hnew
      subst hex
      obtain ⟨t, a, w⟩ := x
      exact ⟨c₀ + w, hc₀.snoc hx⟩
    · exact hA e (List.mem_cons_of_mem _ hold)
  · intro s' hs'
    rcases List.mem_cons.mp hs' with hh | ht
    · subst hh; exact hgl
    · exact hB s' ht
  · intro s' hs' x hx
    rcases List.mem_cons.mp hs' with hh | ht
    · subst hh
      exact Or.inr ⟨path ++ [x.2.1], hpush x hx⟩
    · rcases hC s' ht x hx with hl | ⟨q, hq⟩
      · exact Or.inl (List.mem_cons_of_mem _ hl)
      · rcases List.mem_cons.mp hq with hh' | ht'
        · have hx1 : x.1 = s := congrArg Prod.fst hh'
          rw [hx1]
          exact Or.inl (List.mem_cons_self _ _)
        · exact Or.inr ⟨q, List.mem_append_right _ ht'⟩
  · rcases hD with hl | ⟨q, hq⟩
    · exact Or.inl (List.mem_cons_of_mem _ hl)
    · rcases List.mem_cons.mp hq with hh | ht
      · have hx1 : p.getStartState = s := congrArg Prod.fst hh
        rw [hx1]
        exact Or.inl (List.mem_cons_self _ _)
      · exact Or.inr ⟨q, List.mem_append_right _ ht⟩

theorem bfsInv_skip (p : SearchProblem S A) {s : S} {path : List A}
    {rest : List (S × List A)} {vis : List S}
    (hInv : DfsInv p ((s, path) :: rest) vis) (hvis : s ∈ vis) :
    DfsInv p rest vis := dfsInv_skip p hInv hvis

theorem bfsInv_expand (p : SearchProblem S A) {s : S} {path : List A}
    {rest : List (S × List A)} {vis : List S}
    (hInv : DfsInv p ((s, path) :: rest) vis) (hgl : p.isGoalState s = false)
    (hvis : s ∉ vis) :
    DfsInv p (rest ++ (p.getSuccessors s).map (fun x => (x.1, path ++ [x.2.1])))
      (s :: vis) := by
  obtain ⟨hA, hB, hC, hD⟩ := hInv
  obtain ⟨c₀, hc₀⟩ := hA (s, path) (List.mem_cons_self _ _)
  have hpush : ∀ x ∈ p.getSuccessors s,
      (x.1, path ++ [x.2.1]) ∈
        rest ++ (p.getSuccessors s).map (fun x => (x.1, path ++ [x.2.1])) := by
    intro x hx
    exact List.mem_append_right _ (List.mem_map_of_mem _ hx)
  refine ⟨?_, ?_, ?_, ?_⟩
  · intro e he
    rcases List.mem_append.mp he with hold | hnew
    · exact hA e (List.mem_cons_of_mem _ hold)
    · obtain ⟨x, hx, hex⟩ := List.mem_map.mp hnew
      subst hex
      obtain ⟨t, a, w⟩ := x
      exact ⟨c₀ + w, hc₀.snoc hx⟩
  · intro s' hs'
    rcases List.mem_cons.mp hs' with hh | ht
    · subst hh; exact hgl
    · exact hB s' ht
  · intro s' hs' x hx
    rcases List.mem_cons.mp hs' with hh | ht
    · subst hh
      exact Or.inr ⟨path ++ [x.2.1], hpush x hx⟩
    · rcases hC s' ht x hx with hl | ⟨q, hq⟩
      · exact Or.inl (List.mem_cons_of_mem _ hl)
      · rcases List.mem_cons.mp hq with hh' | ht'
        · have hx1 : x.1 = s := congrArg Prod.fst hh'
          rw [hx1]
          exact Or.inl (List.mem_cons_self _ _)
        · exact Or.inr ⟨q, List.mem_append_left _ ht'⟩
  · rcases hD with hl | ⟨q, hq⟩
    · exact Or.inl (List.mem_cons_of_mem _ hl)
    · rcases List.mem_cons.mp hq with hh | ht
      · have hx1 : p.getStartState = s := congrArg Prod.fst hh
        rw [hx1]
        exact Or.inl (List.mem_cons_self _ _)
      · exact Or.inr ⟨q, List.mem_append_left _ ht⟩

theorem dfs_sound (p : SearchProblem S A) :
    ∀ (fuel : Nat) (fr : List (S × List A)) (vis : List S) (res : List A),
      DfsInv p fr vis → dfsAux p fuel fr vis = some res →
      (∃ v c, CostPath p p.getStartState res v c ∧ p.isGoalState v = true) ∨
        (res = [] ∧ ∀ s, Reaches p s → p.isGoalState s = false) := by
  intro fuel
  induction fuel with
  | zero => intro fr vis res _ hrun; simp [dfsAux] at hrun
  | succ n ih =>
    intro fr vis res hInv hrun
    cases fr with
    | nil =>
      simp only [dfsAux, Option.some.injEq] at hrun
      subst hrun
      right
      refine ⟨rfl, ?_⟩
      obtain ⟨_, hB, hC, hD⟩ := hInv
      have hstart : p.getStartState ∈ vis := by
        rcases hD with hl | ⟨q, hq⟩
        · exact hl
        · simp at hq
      have hcl : ∀ s ∈ vis, ∀ x ∈ p.getSuccessors s, x.1 ∈ vis := by
        intro s hs x hx
        rcases hC s hs x hx with hl | ⟨q, hq⟩
        · exact hl
        · simp at hq
      intro s hs
      exact hB s (reach_closed_list p hstart hcl s hs)
    | cons e rest =>
      obtain ⟨s, path⟩ := e
      rw [dfsAux] at hrun
      split at hrun
      case isTrue hgl =>
        simp only [Option.some.injEq] at hrun
        subst hrun
        obtain ⟨c, hc⟩ := hInv.1 (s, path) (List.mem_cons_self _ _)
        exact Or.inl ⟨s, c, hc, hgl⟩
      case isFalse hgl =>
        split at hrun
        case isTrue hvis =>
          exact ih _ _ res (dfsInv_skip p hInv hvis) hrun
        case isFalse hvis =>
          exact ih _ _ res
            (dfsInv_expand p hInv (Bool.of_not_eq_true hgl) hvis) hrun

theorem bfs_sound (p : SearchProblem S A) :
    ∀ (fuel : Nat) (fr : List (S × List A)) (vis : List S) (res : List A),
      DfsInv p fr vis → bfsAux p fuel fr vis = some res →
      (∃ v c, CostPath p p.getStartState res v c ∧ p.isGoalState v = true) ∨
        (res = [] ∧ ∀ s, Reaches p s → p.isGoalState s = false) := by
  intro fuel
  induction fuel with
  | zero => intro fr vis res _ hrun; simp [bfsAux] at hrun
  | succ n ih =>
    intro fr vis res hInv hrun
    cases fr with
    | nil =>
      simp only [bfsAux, Option.some.injEq] at hrun
      subst hrun
      right
      refine ⟨rfl, ?_⟩
      obtain ⟨_, hB, hC, hD⟩ := hInv
      have hstart : p.getStartState ∈ vis := by
        rcases hD with hl | ⟨q, hq⟩
        · exact hl
        · simp at hq
      have hcl : ∀ s ∈ vis, ∀ x ∈ p.getSuccessors s, x.1 ∈ vis := by
        intro s hs x hx
        rcases hC s hs x hx with hl | ⟨q, hq⟩
        · exact hl
        · simp at hq
      intro s hs
      exact hB s (reach_closed_list p hstart hcl s hs)
    | cons e rest =>
      obtain ⟨s, path⟩ := e
      rw [bfsAux] at hrun
      split at hrun
      case isTrue hgl =>
        simp only [Option.some.injEq] at hrun
        subst hrun
        obtain ⟨c, hc⟩ := hInv.1 (s, path) (List.mem_cons_self _ _)
        exact Or.inl ⟨s, c, hc, hgl⟩
      case isFalse hgl =>
        split at hrun
        case isTrue hvis =>
          exact ih _ _ res (bfsInv_skip p hInv hvis) hrun
        case isFalse hvis =>
          exact ih _ _ res
            (bfsInv_expand p hInv (Bool.of_not_eq_true hgl) hvis) hrun

theorem astar_path_valid (p : SearchProblem S A) (h : S → SearchProblem S A → Nat) :
    ∀ (fuel : Nat) (fr : List (Entry S A × Nat)) (vis : List (S × Nat)) (res : List A),
      AstarInv p h fr vis → aStarAux p h fuel fr vis = some res →
      (∃ v g, CostPath p p.getStartState res v g ∧ p.isGoalState v = true) ∨
        (res = [] ∧ ∀ s, Reaches p s → p.isGoalState s = false) := by
  intro fuel
  induction fuel with
  | zero => intro fr vis res _ hrun; simp [aStarAux] at hrun
  | succ n ih =>
    intro fr vis res hInv hrun
    rw [aStarAux] at hrun
    cases hpop : popMin fr with
    | none =>
      rw [hpop] at hrun
      simp only [Option.some.injEq] at hrun
      subst hrun
      right
      refine ⟨rfl, ?_⟩
      have hfr : fr = [] := popMin_none hpop
      obtain ⟨_, hvis, hrel, hanc⟩ := hInv
      subst hfr
      have hstart : ∃ c₀, lookupV vis p.getStartState = some c₀ := by
        rcases hanc with hl | ⟨e, he, _⟩
        · exact ⟨0, hl⟩
        · simp at he
      have hcl : ∀ s c, lookupV vis s = some c → ∀ x ∈ p.getSuccessors s,
          ∃ cx, lookupV vis x.1 = some cx := by
        intro s c hc x hx
        rcases hrel s c hc x hx with ⟨c', hc', _⟩ | ⟨e, he, _⟩
        · exact ⟨c', hc'⟩
        · simp at he
      intro s hs
      obtain ⟨cv, hcv⟩ := reach_settled p hstart hcl s hs
      exact (hvis s cv hcv).2
    | some pr =>
      obtain ⟨e₀, rest⟩ := pr
      rw [hpop] at hrun
      dsimp only at hrun
      split at hrun
      case isTrue hgl =>
        simp only [Option.some.injEq] at hrun
        subst hrun
        have hge₀ : goodEntry p h e₀ := hInv.1 e₀ (popMin_mem hpop)
        exact Or.inl ⟨e₀.1.state, e₀.1.cost, hge₀.1, hgl⟩
      case isFalse hgl =>
        split at hrun
        case isTrue himp =>
          exact ih _ _ res
            (astarInv_expand p h hInv hpop (Bool.of_not_eq_true hgl) himp) hrun
        case isFalse himp =>
          exact ih _ _ res
            (astarInv_skip p h hInv hpop (Bool.of_not_eq_true himp)) hrun

theorem dfsAuxT_snd (p : SearchProblem S A) :
    ∀ (fuel : Nat) (fr : List (S × List A)) (vis : List S) (acc : List S),
      (dfsAuxT p fuel fr vis acc).2 = dfsAux p fuel fr vis := by
  intro fuel
  induction fuel with
  | zero => intro fr vis acc; rfl
  | succ n ih =>
    intro fr vis acc
    cases fr with
    | nil => rfl
    | cons e rest =>
      obtain ⟨s, path⟩ := e
      simp only [dfsAuxT, dfsAux]
      split
      · rfl
      · split
        · exact ih _ _ _
        · exact ih _ _ _

theorem bfsAuxT_snd (p : SearchProblem S A) :
    ∀ (fuel : Nat) (fr : List (S × List A)) (vis : List S) (acc : List S),
      (bfsAuxT p fuel fr vis acc).2 = bfsAux p fuel fr vis := by
  intro fuel
  induction fuel with
  | zero => intro fr vis acc; rfl
  | succ n ih =>
    intro fr vis acc
    cases fr with
    | nil => rfl
    | cons e rest =>
      obtain ⟨s, path⟩ := e
      simp only [bfsAuxT, bfsAux]
      split
      · rfl
      · split
        · exact ih _ _ _
        · exact ih _ _ _

theorem ucsAuxT_snd (p : SearchProblem S A) :
    ∀ (fuel : Nat) (fr : List (Entry S A × Nat)) (vis acc : List (S × Nat)),
      (ucsAuxT p fuel fr vis acc).2 = ucsAux p fuel fr vis := by
  intro fuel
  induction fuel with
  | zero => intro fr vis acc; rfl
  | succ n ih =>
    intro fr vis acc
    simp only [ucsAuxT, ucsAux]
    cases popMin fr with
    | none => rfl
    | some pr =>
      obtain ⟨e, rest⟩ := pr
      dsimp only
      split
      · rfl
      · split
        · exact ih _ _ _
        · exact ih _ _ _

theorem aStarAuxT_snd (p : SearchProblem S A) (h : S → SearchProblem S A → Nat) :
    ∀ (fuel : Nat) (fr : List (Entry S A × Nat)) (vis acc : List (S × Nat)),
      (aStarAuxT p h fuel fr vis acc).2 = aStarAux p h fuel fr vis := by
  intro fuel
  induction fuel with
  | zero => intro fr vis acc; rfl
  | succ n ih =>
    intro fr vis acc
    simp only [aStarAuxT, aStarAux]
    cases popMin fr with
    | none => rfl
    | some pr =>
      obtain ⟨e, rest⟩ := pr
      dsimp only
      split
      · rfl
      · split
        · exact ih _ _ _
        · exact ih _ _ _

theorem dfsAuxT_nodup (p : SearchProblem S A) :
    ∀ (fuel : Nat) (fr : List (S × List A)) (vis : List S) (acc : List S),
      acc.Nodup → (∀ s ∈ acc, s ∈ vis) → (dfsAuxT p fuel fr vis acc).1.Nodup := by
  intro fuel
  induction fuel with
  | zero => intro fr vis acc hnd _; exact hnd
  | succ n ih =>
    intro fr vis acc hnd hsub
    cases fr with
    | nil => exact hnd
    | cons e rest =>
      obtain ⟨s, path⟩ := e
      simp only [dfsAuxT]
      split
      · exact hnd
      · split
        case isTrue hvis => exact ih _ _ _ hnd hsub
        case isFalse hvis =>
          refine ih _ _ _ ?_ ?_
          · rw [List.nodup_append]
            refine ⟨hnd, List.nodup_singleton s, ?_⟩
            intro a ha hb
            rw [List.mem_singleton] at hb
            subst hb
            exact hvis (hsub a ha)
          · intro t ht
            rcases List.mem_append.mp ht with h1 | h1
            · exact List.mem_cons_of_mem _ (hsub t h1)
            · rw [List.mem_singleton] at h1
              subst h1
              exact List.mem_cons_self _ _

theorem bfsAuxT_nodup (p : SearchProblem S A) :
    ∀ (fuel : Nat) (fr : List (S × List A)) (vis : List S) (acc : List S),
      acc.Nodup → (∀ s ∈ acc, s ∈ vis) → (bfsAuxT p fuel fr vis acc).1.Nodup := by
  intro fuel
  induction fuel with
  | zero => intro fr vis acc hnd _; exact hnd
  | succ n ih =>
    intro fr vis acc hnd hsub
    cases fr with
    | nil => exact hnd
    | cons e rest =>
      obtain ⟨s, path⟩ := e
      simp only [bfsAuxT]
      split
      · exact hnd
      · split
        case isTrue hvis => exact ih _ _ _ hnd hsub
        case isFalse hvis =>
          refine ih _ _ _ ?_ ?_
          · rw [List.nodup_append]
            refine ⟨hnd, List.nodup_singleton s, ?_⟩
            intro a ha hb
            rw [List.mem_singleton] at hb
            subst hb
            exact hvis (hsub a ha)
          · intro t ht
            rcases List.mem_append.mp ht with h1 | h1
            · exact List.mem_cons_of_mem _ (hsub t h1)
            · rw [List.mem_singleton] at h1
              subst h1
              exact List.mem_cons_self _ _

theorem aStarAuxT_strict (p : SearchProblem S A) (h : S → SearchProblem S A → Nat) :
    ∀ (fuel : Nat) (fr : List (Entry S A × Nat)) (vis acc : List (S × Nat)),
      StrictPerState acc →
      (∀ s c, lookupV vis s = some c → ∀ c₀, (s, c₀) ∈ acc → c ≤ c₀) →
      (∀ e ∈ acc, ∃ ce, lookupV vis (e : S × Nat).1 = some ce) →
      StrictPerState (aStarAuxT p h fuel fr vis acc).1 := by
  intro fuel
  induction fuel with
  | zero => intro fr vis acc hsp _ _; exact hsp
  | succ n ih =>
    intro fr vis acc hsp hlow hdom
    simp only [aStarAuxT]
    cases popMin fr with
    | none => exact hsp
    | some pr =>
      obtain ⟨e₀, rest⟩ := pr
      dsimp only
      split
      · exact hsp
      · split
        case isTrue himp =>
          have hbnd : ∀ c₀, (e₀.1.state, c₀) ∈ acc → e₀.1.cost < c₀ := by
            intro c₀ hc₀
            rcases (improves_true_iff vis e₀.1.state e₀.1.cost).mp himp with
              hnone | ⟨m, hm, hlt⟩
            · obtain ⟨ce, hce⟩ := hdom (e₀.1.state, c₀) hc₀
              rw [hce] at hnone
              exact absurd hnone (by simp)
            · exact Nat.lt_of_lt_of_le hlt (hlow e₀.1.state m hm c₀ hc₀)
          refine ih _ _ _ ?_ ?_ ?_
          · unfold StrictPerState
            rw [List.pairwise_append]
            refine ⟨hsp, List.pairwise_singleton _ _, ?_⟩
            intro e1 he1 e2 he2
            rw [List.mem_singleton] at he2
            subst he2
            intro heq
            obtain ⟨s1, c1⟩ := e1
            dsimp only at heq
            subst heq
            exact hbnd c1 he1
          · intro s c hc c₀ hc₀
            rcases List.mem_append.mp hc₀ with hold | hnew
            · by_cases hs : s = e₀.1.state
              · subst hs
                rw [lookupV_updateV_self] at hc
                simp only [Option.some.injEq] at hc
                subst hc
                exact Nat.le_of_lt (hbnd c₀ hold)
              · rw [lookupV_updateV_ne vis e₀.1.state s e₀.1.cost hs] at hc
                exact hlow s c hc c₀ hold
            · rw [List.mem_singleton, Prod.mk.injEq] at hnew
              obtain ⟨hs, hc₀'⟩ := hnew
              subst hs
              subst hc₀'
              rw [lookupV_updateV_self] at hc
              simp only [Option.some.injEq] at hc
              omega
          · intro e he
            rcases List.mem_append.mp he with hold | hnew
            · by_cases hs : e.1 = e₀.1.state
              · rw [hs, lookupV_updateV_self]
                exact ⟨e₀.1.cost, rfl⟩
              · rw [lookupV_updateV_ne vis e₀.1.state e.1 e₀.1.cost hs]
                exact hdom e hold
            · rw [List.mem_singleton] at hnew
              subst hnew
              rw [lookupV_updateV_self]
              exact ⟨e₀.1.cost, rfl⟩
        case isFalse himp => exact ih _ _ _ hsp hlow hdom

theorem ucsAuxT_eq_aStarAuxT_null (p : SearchProblem S A) :
    ∀ (fuel : Nat) (fr : List (Entry S A × Nat)) (vis acc : List (S × Nat)),
      ucsAuxT p fuel fr vis acc = aStarAuxT p nullHeuristic fuel fr vis acc := by
  intro fuel
  induction fuel with
  | zero => intro fr vis acc; rfl
  | succ n ih =>
    intro fr vis acc
    simp only [ucsAuxT, aStarAuxT]
    cases popMin fr with
    | none => rfl
    | some pr =>
      obtain ⟨e, rest⟩ := pr
      dsimp only
      split
      · rfl
      · split
        · rw [← aStarExpandEntries_null]; exact ih _ _ _
        · exact ih _ _ _

/-- For a well-behaved (deterministic) problem source, the functional
replay agrees with the replay relation. -/
theorem replay_of_costPath (p : SearchProblem S A) (hdet : Deterministic p) :
    ∀ (s : S) (acts : List A) (v : S) (c : Nat), CostPath p s acts v c →
      replay p s acts = some (v, c) := by
  intro s acts v c hp
  induction hp with
  | nil s' => rfl
  | cons hx hp' ih =>
    rename_i s' t v' a w c' acts'
    simp only [replay]
    cases hf : (p.getSuccessors s').find? (fun x => x.2.1 == a) with
    | none =>
      have hnone := List.find?_eq_none.mp hf (t, a, w) hx
      simp at hnone
    | some x =>
      obtain ⟨x1, xa, xw⟩ := x
      have hmem := List.mem_of_find?_eq_some hf
      have hpred := List.find?_some hf
      simp only [beq_iff_eq] at hpred
      subst hpred
      obtain ⟨ht, hw⟩ := hdet s' t xa w x1 xw hx hmem
      subst ht
      subst hw
      dsimp only
      rw [ih]

theorem mem_ucsExpandEntries (p : SearchProblem S A) (vis : List (S × Nat)) (s : S)
    (path : List A) (g : Nat) (e : Entry S A × Nat) :
    e ∈ ucsExpandEntries p vis s path g ↔
      ∃ x ∈ p.getSuccessors s, improves vis x.1 (g + x.2.2) = true ∧
        e = (Entry.mk x.1 (path ++ [x.2.1]) (g + x.2.2), g + x.2.2) := by
  simp only [ucsExpandEntries, List.mem_map, List.mem_filter]
  constructor
  · intro ⟨x, ⟨hx, himp⟩, he⟩
    exact ⟨x, hx, himp, he.symm⟩
  · intro ⟨x, hx, himp, he⟩
    exact ⟨x, ⟨hx, himp⟩, he.symm⟩

theorem exProblem_det : Deterministic exProblem := by
  intro s t a w t' w' h1 h2
  rcases s with _ | (_ | (_ | (_ | n)))
  · simp only [exProblem, List.mem_cons, List.mem_singleton, Prod.mk.injEq] at h1 h2
    rcases h1 with ⟨rfl, rfl, rfl⟩ | ⟨rfl, rfl, rfl⟩ <;>
      rcases h2 with ⟨rfl, h2a, rfl⟩ | ⟨rfl, h2a, rfl⟩ <;> simp_all
  · simp only [exProblem, List.mem_singleton, Prod.mk.injEq] at h1 h2
    rcases h1 with ⟨rfl, rfl, rfl⟩
    rcases h2 with ⟨rfl, h2a, rfl⟩
    exact ⟨rfl, rfl⟩
  · simp only [exProblem, List.mem_singleton, Prod.mk.injEq] at h1 h2
    rcases h1 with ⟨rfl, rfl, rfl⟩
    rcases h2 with ⟨rfl, h2a, rfl⟩
    exact ⟨rfl, rfl⟩
  · simp [exProblem] at h1
  · simp [exProblem] at h1

theorem exProblem_finite : ∀ s, Reaches exProblem s → s ∈ [0, 1, 2, 3] :=
  reach_closed_list exProblem (by decide) (by decide)

theorem exProblem_goalpath : CostPath exProblem 0 [20, 31] 3 (2 + (1 + 0)) := by
  have h1 : ((2 : Nat), (20 : Nat), (2 : Nat)) ∈ exProblem.getSuccessors 0 := by
    simp [exProblem]
  have h2 : ((3 : Nat), (31 : Nat), (1 : Nat)) ∈ exProblem.getSuccessors 2 := by
    simp [exProblem]
  exact CostPath.cons h1 (CostPath.cons h2 (CostPath.nil 3))

theorem cycleProblem_finite : ∀ s, Reaches cycleProblem s → s ∈ [0, 1] :=
  reach_closed_list cycleProblem (by decide) (by decide)

theorem cycleProblem_nogoal : ∀ s, Reaches cycleProblem s →
    cycleProblem.isGoalState s = false := fun _ _ => rfl

theorem validResult_of_disj (p : SearchProblem S A) {res : List A}
    (hd : (∃ v c, CostPath p p.getStartState res v c ∧ p.isGoalState v = true) ∨
      (res = [] ∧ ∀ s, Reaches p s → p.isGoalState s = false)) :
    ValidResult p res := by
  constructor
  · intro hne
    rcases hd with h1 | ⟨he, _⟩
    · exact h1
    · exact absurd he hne
  · intro he
    rcases hd with ⟨v, c, hcp, hg⟩ | ⟨_, hng⟩
    · subst he
      obtain ⟨hsv, _⟩ := hcp.nil_inv
      left
      rw [hsv]
      exact hg
    · exact Or.inr hng

theorem nullHeuristic_admissible (p : SearchProblem S A) :
    Admissible p nullHeuristic := fun _ _ _ c _ _ => Nat.zero_le c

theorem nullHeuristic_consistent (p : SearchProblem S A) :
    Consistent p nullHeuristic := fun _ x _ => Nat.zero_le _

/-- The head of `aStarSearch`'s run on its own initial frontier, as used
by `astar_term` and `astar_sound`. -/
theorem uniformCostSearch_as_astar (p : SearchProblem S A) (fuel : Nat) :
    uniformCostSearch p fuel =
      aStarAux p nullHeuristic fuel [(Entry.mk p.getStartState [] 0, 0)] [] :=
  (aStarAux_null p fuel _ _).symm

/-! ### Claim theorems -/
/-- C1: for every well-behaved (deterministic) problem with non-negative
step costs and a finite reachable state space in which some goal state is
reachable, uniform-cost search returns an action sequence whose
`getCostOfActions` equals the true minimum goal cost, and so does A*
search under an admissible and consistent heuristic. -/
theorem C1_optimality (p : SearchProblem S A) (h : S → SearchProblem S A → Nat)
    (hdet : Deterministic p)
    (hfin : ∃ L : List S, ∀ s, Reaches p s → s ∈ L)
    (hgoal : ∃ acts v c, CostPath p p.getStartState acts v c ∧ p.isGoalState v = true)
    (hadm : Admissible p h) (hcons : Consistent p h) :
    ∃ cmin, IsMinGoalCost p cmin ∧
      (∃ fuel res, uniformCostSearch p fuel = some res ∧
        getCostOfActions p res = some cmin) ∧
      (∃ fuel res, aStarSearch p h fuel = some res ∧
        getCostOfActions p res = some cmin) := by
  obtain ⟨L, hL⟩ := hfin
  have hreachA : ∀ e ∈ [(Entry.mk p.getStartState ([] : List A) 0,
      0 + h p.getStartState p)], Reaches p (e : Entry S A × Nat).1.state := by
    intro e he
    rw [List.mem_singleton] at he
    subst he
    exact Reaches.start p
  have hreachU : ∀ e ∈ [(Entry.mk p.getStartState ([] : List A) 0, 0)],
      Reaches p (e : Entry S A × Nat).1.state := by
    intro e he
    rw [List.mem_singleton] at he
    subst he
    exact Reaches.start p
  obtain ⟨fuelA, resA, hrunA⟩ :=
    astar_term p h L hL (unvisK L []) (sumV []) 1 []
      [(Entry.mk p.getStartState [] 0, 0 + h p.getStartState p)]
      (Nat.le_refl _) (Nat.le_refl _) (by simp) hreachA
  obtain ⟨fuelU, resU, hrunU⟩ :=
    astar_term p nullHeuristic L hL (unvisK L []) (sumV []) 1 []
      [(Entry.mk p.getStartState [] 0, 0)]
      (Nat.le_refl _) (Nat.le_refl _) (by simp) hreachU
  obtain ⟨vA, gA, hcpA, hglA, hminA⟩ :=
    astar_sound p h hadm fuelA _ _ resA (astarInv_init p h _ rfl) hrunA hgoal
  obtain ⟨vU, gU, hcpU, hglU, hminU⟩ :=
    astar_sound p nullHeuristic (nullHeuristic_admissible p) fuelU _ _ resU
      (astarInv_init p nullHeuristic 0 rfl) hrunU hgoal
  have hAU : gA = gU :=
    Nat.le_antisymm (hminA resU vU gU hcpU hglU) (hminU resA vA gA hcpA hglA)
  refine ⟨gU, ⟨⟨resU, vU, hcpU, hglU⟩, hminU⟩, ?_, ?_⟩
  · refine ⟨fuelU, resU, ?_, ?_⟩
    · rw [uniformCostSearch_as_astar]
      exact hrunU
    · unfold getCostOfActions
      rw [replay_of_costPath p hdet _ _ _ _ hcpU]
      rfl
  · refine ⟨fuelA, resA, hrunA, ?_⟩
    unfold getCostOfActions
    rw [replay_of_costPath p hdet _ _ _ _ hcpA]
    rw [hAU]
    rfl

theorem C1_optimality_witness :
    ∃ cmin, IsMinGoalCost exProblem cmin ∧
      (∃ fuel res, uniformCostSearch exProblem fuel = some res ∧
        getCostOfActions exProblem res = some cmin) ∧
      (∃ fuel res, aStarSearch exProblem nullHeuristic fuel = some res ∧
        getCostOfActions exProblem res = some cmin) :=
  C1_optimality exProblem nullHeuristic exProblem_det
    ⟨[0, 1, 2, 3], exProblem_finite⟩
    ⟨[20, 31], 3, 2 + (1 + 0), exProblem_goalpath, by decide⟩
    (nullHeuristic_admissible exProblem) (nullHeuristic_consistent exProblem)

/-- C2: for each of the four search functions independently and every
problem, whenever that function returns an action sequence, a non-empty
sequence replays from the start state via `getSuccessors` (following the
successor triple carrying each action) to a state satisfying
`isGoalState`, and an empty sequence means the start state is a goal or
no goal state is reachable. -/
theorem C2_path_validity (p : SearchProblem S A) (h : S → SearchProblem S A → Nat) :
    (∀ fuel res, depthFirstSearch p fuel = some res → ValidResult p res) ∧
      (∀ fuel res, breadthFirstSearch p fuel = some res → ValidResult p res) ∧
      (∀ fuel res, uniformCostSearch p fuel = some res → ValidResult p res) ∧
      (∀ fuel res, aStarSearch p h fuel = some res → ValidResult p res) := by
  refine ⟨?_, ?_, ?_, ?_⟩
  · intro fuel res h₁
    exact validResult_of_disj p (dfs_sound p fuel _ _ res (dfsInv_init p) h₁)
  · intro fuel res h₂
    exact validResult_of_disj p (bfs_sound p fuel _ _ res (dfsInv_init p) h₂)
  · intro fuel res h₃
    have h₃' : aStarAux p nullHeuristic fuel
        [(Entry.mk p.getStartState [] 0, 0)] [] = some res := by
      rw [← uniformCostSearch_as_astar]
      exact h₃
    exact validResult_of_disj p (astar_path_valid p nullHeuristic fuel _ _ res
      (astarInv_init p nullHeuristic 0 rfl) h₃')
  · intro fuel res h₄
    exact validResult_of_disj p (astar_path_valid p h fuel _ _ res
      (astarInv_init p h _ rfl) h₄)

theorem C2_path_validity_witness :
    ValidResult exProblem [20, 31] ∧ ValidResult exProblem [10, 30] ∧
      ValidResult exProblem [20, 31] ∧ ValidResult exProblem [20, 31] :=
  ⟨(C2_path_validity exProblem nullHeuristic).1 20 [20, 31] rfl,
    (C2_path_validity exProblem nullHeuristic).2.1 20 [10, 30] rfl,
    (C2_path_validity exProblem nullHeuristic).2.2.1 20 [20, 31] rfl,
    (C2_path_validity exProblem nullHeuristic).2.2.2 20 [20, 31] rfl⟩

/-- C3: with the default zero heuristic, `aStarSearch` computes exactly
the same result as `uniformCostSearch` on the identical problem — the
returned action sequences coincide, hence so do their total costs. -/
theorem C3_zero_heuristic_equivalence (p : SearchProblem S A) (fuel : Nat) :
    aStarSearch p nullHeuristic fuel = uniformCostSearch p fuel ∧
      (aStarSearch p nullHeuristic fuel).map (fun res => getCostOfActions p res) =
        (uniformCostSearch p fuel).map (fun res => getCostOfActions p res) := by
  refine ⟨aStarSearch_null p fuel, ?_⟩
  rw [aStarSearch_null p fuel]

/-- C4 counterexample: in the uniform-cost run on `cycleProblem`, the
iteration expanding state 1 (with best-cost map {0 ↦ 0, 1 ↦ 1}, path
[10], accumulated cost 1) inserts no frontier entry at all, although
`getSuccessors 1` returns one successor triple: the back edge to state 0
fails the `nextState not in visited or newCost < visited[nextState]`
check.  The first conjunct shows this map is the one the run builds. -/
theorem C4_counterexample :
    ucsExpanded cycleProblem 5 = [(0, 0), (1, 1)] ∧
      ucsExpandEntries cycleProblem (updateV (updateV [] 0 0) 1 1) 1 [10] 1 = [] ∧
      cycleProblem.getSuccessors 1 ≠ [] := by
  refine ⟨by decide, by decide, by decide⟩

/-- C4 amended: in each expansion of the cost-aware searches, a successor
triple (t, a, w) of the expanded state yields a new frontier entry
(extending the path by `a`, adding `w` to the accumulated cost, priority
as appropriate) exactly when the updated best-cost map does not already
record `t` at a cost at most the new accumulated cost. -/
theorem C4_amended (p : SearchProblem S A) (h : S → SearchProblem S A → Nat)
    (vis : List (S × Nat)) (s t : S) (path : List A) (g : Nat) (a : A) (w : Nat)
    (hx : (t, a, w) ∈ p.getSuccessors s) :
    ((Entry.mk t (path ++ [a]) (g + w), g + w) ∈ ucsExpandEntries p vis s path g ↔
      improves vis t (g + w) = true) ∧
      ((Entry.mk t (path ++ [a]) (g + w), g + w + h t p) ∈
          aStarExpandEntries p h vis s path g ↔
        improves vis t (g + w) = true) := by
  constructor
  · constructor
    · intro hmem
      obtain ⟨x, hxs, himp, hex⟩ := (mem_ucsExpandEntries p vis s path g _).mp hmem
      obtain ⟨x1, xa, xw⟩ := x
      simp only [Prod.mk.injEq, Entry.mk.injEq] at hex
      obtain ⟨⟨ht, _, hc⟩, _⟩ := hex
      subst ht
      have hw : w = xw := by omega
      subst hw
      exact himp
    · intro himp
      refine (mem_ucsExpandEntries p vis s path g _).mpr ⟨(t, a, w), hx, himp, rfl⟩
  · constructor
    · intro hmem
      obtain ⟨x, hxs, himp, hex⟩ := (mem_aStarExpandEntries p h vis s path g _).mp hmem
      obtain ⟨x1, xa, xw⟩ := x
      simp only [Prod.mk.injEq, Entry.mk.injEq] at hex
      obtain ⟨⟨ht, _, hc⟩, _⟩ := hex
      subst ht
      have hw : w = xw := by omega
      subst hw
      exact himp
    · intro himp
      refine (mem_aStarExpandEntries p h vis s path g _).mpr ⟨(t, a, w), hx, himp, rfl⟩

theorem C4_amended_witness :
    ((Entry.mk 1 ([] ++ [10]) (0 + 1), 0 + 1) ∈
        ucsExpandEntries exProblem [] 0 [] 0 ↔
      improves ([] : List (Nat × Nat)) 1 (0 + 1) = true) ∧
      ((Entry.mk 1 ([] ++ [10]) (0 + 1), 0 + 1 + nullHeuristic 1 exProblem) ∈
          aStarExpandEntries exProblem nullHeuristic [] 0 [] 0 ↔
        improves ([] : List (Nat × Nat)) 1 (0 + 1) = true) :=
  C4_amended exProblem nullHeuristic [] 0 1 [] 0 10 1 (by decide)

/-- C5: during any single run of `depthFirstSearch` or
`breadthFirstSearch`, no state has its successors generated twice: the
trace of expanded states has no duplicates.  The last two conjuncts state
that the instrumented loops compute exactly the search results. -/
theorem C5_visited_once (p : SearchProblem S A) (fuel : Nat) :
    (dfsExpanded p fuel).Nodup ∧ (bfsExpanded p fuel).Nodup ∧
      (dfsAuxT p fuel [(p.getStartState, [])] [] []).2 = depthFirstSearch p fuel ∧
      (bfsAuxT p fuel [(p.getStartState, [])] [] []).2 = breadthFirstSearch p fuel :=
  ⟨dfsAuxT_nodup p fuel _ _ [] List.nodup_nil (fun s hs => absurd hs (List.not_mem_nil s)),
    bfsAuxT_nodup p fuel _ _ [] List.nodup_nil (fun s hs => absurd hs (List.not_mem_nil s)),
    dfsAuxT_snd p fuel _ _ [], bfsAuxT_snd p fuel _ _ []⟩

/-- C6: during any single run of `uniformCostSearch` or `aStarSearch`, a
state is re-expanded only at a strictly smaller accumulated cost than the
cost recorded at its previous expansion (the best-cost map holds exactly
the last expansion cost).  The last two conjuncts state that the
instrumented loops compute exactly the search results. -/
theorem C6_monotonic_relaxation (p : SearchProblem S A)
    (h : S → SearchProblem S A → Nat) (fuel : Nat) :
    StrictPerState (ucsExpanded p fuel) ∧ StrictPerState (aStarExpanded p h fuel) ∧
      (ucsAuxT p fuel [(Entry.mk p.getStartState [] 0, 0)] [] []).2 =
        uniformCostSearch p fuel ∧
      (aStarAuxT p h fuel [(Entry.mk p.getStartState [] 0,
        0 + h p.getStartState p)] [] []).2 = aStarSearch p h fuel := by
  refine ⟨?_, ?_, ?_, ?_⟩
  · unfold ucsExpanded
    rw [ucsAuxT_eq_aStarAuxT_null]
    exact aStarAuxT_strict p nullHeuristic fuel _ _ [] List.Pairwise.nil
      (fun s c hc => by simp [lookupV] at hc)
      (fun e he => absurd he (List.not_mem_nil e))
  · exact aStarAuxT_strict p h fuel _ _ [] List.Pairwise.nil
      (fun s c hc => by simp [lookupV] at hc)
      (fun e he => absurd he (List.not_mem_nil e))
  · exact ucsAuxT_snd p fuel _ _ []
  · exact aStarAuxT_snd p h fuel _ _ []

/-- C7: when the start state already satisfies the goal test, all four
search functions return the empty action sequence (with any positive
fuel), and no state is ever expanded — `getSuccessors` is never called. -/
theorem C7_goal_start (p : SearchProblem S A) (h : S → SearchProblem S A → Nat)
    (fuel : Nat) (hstart : p.isGoalState p.getStartState = true) :
    depthFirstSearch p (fuel + 1) = some [] ∧
      breadthFirstSearch p (fuel + 1) = some [] ∧
      uniformCostSearch p (fuel + 1) = some [] ∧
      aStarSearch p h (fuel + 1) = some [] ∧
      dfsExpanded p (fuel + 1) = [] ∧ bfsExpanded p (fuel + 1) = [] ∧
      ucsExpanded p (fuel + 1) = [] ∧ aStarExpanded p h (fuel + 1) = [] := by
  refine ⟨?_, ?_, ?_, ?_, ?_, ?_, ?_, ?_⟩ <;>
    simp [depthFirstSearch, dfsAux, breadthFirstSearch, bfsAux, uniformCostSearch,
      ucsAux, aStarSearch, aStarAux, dfsExpanded, dfsAuxT, bfsExpanded, bfsAuxT,
      ucsExpanded, ucsAuxT, aStarExpanded, aStarAuxT, popMin, hstart]

theorem C7_goal_start_witness :
    depthFirstSearch goalStartProblem (0 + 1) = some [] ∧
      breadthFirstSearch goalStartProblem (0 + 1) = some [] ∧
      uniformCostSearch goalStartProblem (0 + 1) = some [] ∧
      aStarSearch goalStartProblem nullHeuristic (0 + 1) = some [] ∧
      dfsExpanded goalStartProblem (0 + 1) = [] ∧
      bfsExpanded goalStartProblem (0 + 1) = [] ∧
      ucsExpanded goalStartProblem (0 + 1) = [] ∧
      aStarExpanded goalStartProblem nullHeuristic (0 + 1) = [] :=
  C7_goal_start goalStartProblem nullHeuristic 0 (by decide)

/-- C8: on a problem with a finite reachable state space in which no
reachable state is a goal, each of the four search functions exhausts its
frontier and returns the empty action sequence (the engine signals no
error: it returns a value). -/
theorem C8_unreachable_goal (p : SearchProblem S A) (h : S → SearchProblem S A → Nat)
    (hfin : ∃ L : List S, ∀ s, Reaches p s → s ∈ L)
    (hng : ∀ s, Reaches p s → p.isGoalState s = false) :
    (∃ fuel, depthFirstSearch p fuel = some []) ∧
      (∃ fuel, breadthFirstSearch p fuel = some []) ∧
      (∃ fuel, uniformCostSearch p fuel = some []) ∧
      (∃ fuel, aStarSearch p h fuel = some []) := by
  obtain ⟨L, hL⟩ := hfin
  have hreach1 : ∀ e ∈ [(p.getStartState, ([] : List A))],
      Reaches p (e : S × List A).1 := by
    intro e he
    rw [List.mem_singleton] at he
    subst he
    exact Reaches.start p
  have hreachU : ∀ e ∈ [(Entry.mk p.getStartState ([] : List A) 0, 0)],
      Reaches p (e : Entry S A × Nat).1.state := by
    intro e he
    rw [List.mem_singleton] at he
    subst he
    exact Reaches.start p
  have hreachA : ∀ e ∈ [(Entry.mk p.getStartState ([] : List A) 0,
      0 + h p.getStartState p)], Reaches p (e : Entry S A × Nat).1.state := by
    intro e he
    rw [List.mem_singleton] at he
    subst he
    exact Reaches.start p
  refine ⟨?_, ?_, ?_, ?_⟩
  · obtain ⟨fuel, res, hrun⟩ :=
      dfs_term p L hL (unvisS L []) [] (Nat.le_refl _) _ hreach1
    rcases dfs_sound p fuel _ _ res (dfsInv_init p) hrun with ⟨v, c, hcp, hg⟩ | ⟨he, _⟩
    · rw [hng v ⟨res, c, hcp⟩] at hg
      exact absurd hg (by simp)
    · subst he
      exact ⟨fuel, hrun⟩
  · obtain ⟨fuel, res, hrun⟩ :=
      bfs_term p L hL (unvisS L []) [] (Nat.le_refl _) _ hreach1
    rcases bfs_sound p fuel _ _ res (dfsInv_init p) hrun with ⟨v, c, hcp, hg⟩ | ⟨he, _⟩
    · rw [hng v ⟨res, c, hcp⟩] at hg
      exact absurd hg (by simp)
    · subst he
      exact ⟨fuel, hrun⟩
  · obtain ⟨fuel, res, hrun⟩ :=
      astar_term p nullHeuristic L hL (unvisK L []) (sumV []) 1 []
        [(Entry.mk p.getStartState [] 0, 0)]
        (Nat.le_refl _) (Nat.le_refl _) (by simp) hreachU
    rcases astar_path_valid p nullHeuristic fuel _ _ res
        (astarInv_init p nullHeuristic 0 rfl) hrun with ⟨v, c, hcp, hg⟩ | ⟨he, _⟩
    · rw [hng v ⟨res, c, hcp⟩] at hg
      exact absurd hg (by simp)
    · subst he
      refine ⟨fuel, ?_⟩
      rw [uniformCostSearch_as_astar]
      exact hrun
  · obtain ⟨fuel, res, hrun⟩ :=
      astar_term p h L hL (unvisK L []) (sumV []) 1 []
        [(Entry.mk p.getStartState [] 0, 0 + h p.getStartState p)]
        (Nat.le_refl _) (Nat.le_refl _) (by simp) hreachA
    rcases astar_path_valid p h fuel _ _ res
        (astarInv_init p h _ rfl) hrun with ⟨v, c, hcp, hg⟩ | ⟨he, _⟩
    · rw [hng v ⟨res, c, hcp⟩] at hg
      exact absurd hg (by simp)
    · subst he
      exact ⟨fuel, hrun⟩

theorem C8_unreachable_goal_witness :
    (∃ fuel, depthFirstSearch cycleProblem fuel = some []) ∧
      (∃ fuel, breadthFirstSearch cycleProblem fuel = some []) ∧
      (∃ fuel, uniformCostSearch cycleProblem fuel = some []) ∧
      (∃ fuel, aStarSearch cycleProblem nullHeuristic fuel = some []) :=
  C8_unreachable_goal cycleProblem nullHeuristic ⟨[0, 1], cycleProblem_finite⟩
    cycleProblem_nogoal

/-- C9: on a problem whose reachable state space is finite — cycles
included — each of the four search functions terminates: some finite fuel
makes the loop return a value. -/
theorem C9_termination (p : SearchProblem S A) (h : S → SearchProblem S A → Nat)
    (hfin : ∃ L : List S, ∀ s, Reaches p s → s ∈ L) :
    (∃ fuel res, depthFirstSearch p fuel = some res) ∧
      (∃ fuel res, breadthFirstSearch p fuel = some res) ∧
      (∃ fuel res, uniformCostSearch p fuel = some res) ∧
      (∃ fuel res, aStarSearch p h fuel = some res) := by
  obtain ⟨L, hL⟩ := hfin
  have hreach1 : ∀ e ∈ [(p.getStartState, ([] : List A))],
      Reaches p (e : S × List A).1 := by
    intro e he
    rw [List.mem_singleton] at he
    subst he
    exact Reaches.start p
  have hreachU : ∀ e ∈ [(Entry.mk p.getStartState ([] : List A) 0, 0)],
      Reaches p (e : Entry S A × Nat).1.state := by
    intro e he
    rw [List.mem_singleton] at he
    subst he
    exact Reaches.start p
  have hreachA : ∀ e ∈ [(Entry.mk p.getStartState ([] : List A) 0,
      0 + h p.getStartState p)], Reaches p (e : Entry S A × Nat).1.state := by
    intro e he
    rw [List.mem_singleton] at he
    subst he
    exact Reaches.start p
  refine ⟨?_, ?_, ?_, ?_⟩
  · obtain ⟨fuel, res, hrun⟩ :=
      dfs_term p L hL (unvisS L []) [] (Nat.le_refl _) _ hreach1
    exact ⟨fuel, res, hrun⟩
  · obtain ⟨fuel, res, hrun⟩ :=
      bfs_term p L hL (unvisS L []) [] (Nat.le_refl _) _ hreach1
    exact ⟨fuel, res, hrun⟩
  · obtain ⟨fuel, res, hrun⟩ :=
      astar_term p nullHeuristic L hL (unvisK L []) (sumV []) 1 []
        [(Entry.mk p.getStartState [] 0, 0)]
        (Nat.le_refl _) (Nat.le_refl _) (by simp) hreachU
    refine ⟨fuel, res, ?_⟩
    rw [uniformCostSearch_as_astar]
    exact hrun
  · obtain ⟨fuel, res, hrun⟩ :=
      astar_term p h L hL (unvisK L []) (sumV []) 1 []
        [(Entry.mk p.getStartState [] 0, 0 + h p.getStartState p)]
        (Nat.le_refl _) (Nat.le_refl _) (by simp) hreachA
    exact ⟨fuel, res, hrun⟩

theorem C9_termination_witness :
    (∃ fuel res, depthFirstSearch cycleProblem fuel = some res) ∧
      (∃ fuel res, breadthFirstSearch cycleProblem fuel = some res) ∧
      (∃ fuel res, uniformCostSearch cycleProblem fuel = some res) ∧
      (∃ fuel res, aStarSearch cycleProblem nullHeuristic fuel = some res) :=
  C9_termination cycleProblem nullHeuristic ⟨[0, 1], cycleProblem_finite⟩

theorem dfsAux_cost_free (p₁ p₂ : SearchProblem S A)
    (hgoal : ∀ s, p₁.isGoalState s = p₂.isGoalState s)
    (hsucc : ∀ s, (p₁.getSuccessors s).map (fun x => (x.1, x.2.1)) =
      (p₂.getSuccessors s).map (fun x => (x.1, x.2.1))) :
    ∀ (fuel : Nat) (fr : List (S × List A)) (vis : List S),
      dfsAux p₁ fuel fr vis = dfsAux p₂ fuel fr vis := by
  intro fuel
  induction fuel with
  | zero => intro fr vis; rfl
  | succ n ih =>
    intro fr vis
    cases fr with
    | nil => rfl
    | cons e rest =>
      obtain ⟨s, path⟩ := e
      have hpush : (p₁.getSuccessors s).map (fun x => (x.1, path ++ [x.2.1])) =
          (p₂.getSuccessors s).map (fun x => (x.1, path ++ [x.2.1])) := by
        have hcong := congrArg (List.map (fun y : S × A => (y.1, path ++ [y.2])))
          (hsucc s)
        rw [List.map_map, List.map_map] at hcong
        exact hcong
      simp only [dfsAux]
      rw [hgoal s, hpush]
      split
      · rfl
      · split
        · exact ih _ _
        · exact ih _ _

theorem bfsAux_cost_free (p₁ p₂ : SearchProblem S A)
    (hgoal : ∀ s, p₁.isGoalState s = p₂.isGoalState s)
    (hsucc : ∀ s, (p₁.getSuccessors s).map (fun x => (x.1, x.2.1)) =
      (p₂.getSuccessors s).map (fun x => (x.1, x.2.1))) :
    ∀ (fuel : Nat) (fr : List (S × List A)) (vis : List S),
      bfsAux p₁ fuel fr vis = bfsAux p₂ fuel fr vis := by
  intro fuel
  induction fuel with
  | zero => intro fr vis; rfl
  | succ n ih =>
    intro fr vis
    cases fr with
    | nil => rfl
    | cons e rest =>
      obtain ⟨s, path⟩ := e
      have hpush : (p₁.getSuccessors s).map (fun x => (x.1, path ++ [x.2.1])) =
          (p₂.getSuccessors s).map (fun x => (x.1, path ++ [x.2.1])) := by
        have hcong := congrArg (List.map (fun y : S × A => (y.1, path ++ [y.2])))
          (hsucc s)
        rw [List.map_map, List.map_map] at hcong
        exact hcong
      simp only [bfsAux]
      rw [hgoal s, hpush]
      split
      · rfl
      · split
        · exact ih _ _
        · exact ih _ _

/-- C10: the uninformed searches discard step costs — two problems that
agree on start state, goal test, and the (state, action) parts of every
successor triple (differing only in step costs) get identical results
from `depthFirstSearch` and `breadthFirstSearch`. -/
theorem C10_cost_insensitive (p₁ p₂ : SearchProblem S A)
    (hstart : p₁.getStartState = p₂.getStartState)
    (hgoal : ∀ s, p₁.isGoalState s = p₂.isGoalState s)
    (hsucc : ∀ s, (p₁.getSuccessors s).map (fun x => (x.1, x.2.1)) =
      (p₂.getSuccessors s).map (fun x => (x.1, x.2.1))) (fuel : Nat) :
    depthFirstSearch p₁ fuel = depthFirstSearch p₂ fuel ∧
      breadthFirstSearch p₁ fuel = breadthFirstSearch p₂ fuel := by
  unfold depthFirstSearch breadthFirstSearch
  rw [hstart]
  exact ⟨dfsAux_cost_free p₁ p₂ hgoal hsucc fuel _ _,
    bfsAux_cost_free p₁ p₂ hgoal hsucc fuel _ _⟩

theorem C10_cost_insensitive_witness :
    depthFirstSearch chainProblemA 10 = depthFirstSearch chainProblemB 10 ∧
      breadthFirstSearch chainProblemA 10 = breadthFirstSearch chainProblemB 10 :=
  C10_cost_insensitive chainProblemA chainProblemB rfl (fun _ => rfl)
    (fun s => by rcases s with _ | (_ | n) <;> rfl) 10

end SearchSpec
